import Mathlib

/-!
Shallow embedding of the scheduling core of the Calendar-app repository
(`autoScheduleTasks` and `getAvailableSlots` in the main script, the variant
with commute handling, the `max` cursor guard and the `minBreak + 15` gap
filter).

Modelling conventions:
* Timestamps are integers counting minutes; JavaScript `Date` millisecond
  timestamps divided by 60000 become these minute counts, so a slot's
  duration in minutes `(slot.end - slot.start) / 60000` is `stop - start`.
* A calendar day `d : Int` covers minutes `[d * 1440, (d+1) * 1440)`;
  `setHours(0,0,0,0)` is flooring to a multiple of 1440, `setHours(h,0,0,0)`
  is `d * 1440 + h * 60`, and `getDay()` is `d % 7` (the anchoring of weekday
  numbers to an epoch is irrelevant because the working-day set is arbitrary).
* The JavaScript field name `end` is spelled `stop` (`end` is a Lean keyword).
* Tasks are mutated in place by the engine; object identity is modelled by
  tracking each task's position in `this.tasks`, pairing it with its index
  before sorting and writing placements back through `List.set`.
* `Array.prototype.sort` with a consistent comparator is a stable sort; it is
  modelled by `List.insertionSort`, which is stable.
-/

namespace Cal

/-- Entries of `this.events`: fixed events, scheduled task events and commute
events all share this shape (the `id` field, a random string never read by
the scheduling core, is omitted). -/
structure Event where
  name : String
  start : Int
  stop : Int
  isFixed : Bool
  isTask : Bool
  isCommute : Bool
  taskId : Option Nat := none
deriving DecidableEq, Repr

/-- Entries of `this.tasks`.  `id` models the task object's identity-bearing
id string. -/
structure Task where
  id : Nat
  name : String
  priority : Int
  deadline : Int
  duration : Int
  commuteToDuration : Int
  commuteFromDuration : Int
  isScheduled : Bool
  scheduledStart : Option Int
  scheduledEnd : Option Int
deriving DecidableEq, Repr

/-- A free slot `{start, end}` produced by `getAvailableSlots`. -/
structure Slot where
  start : Int
  stop : Int
deriving DecidableEq, Repr

/-- The `this.settings` fields read by the scheduling core. -/
structure Settings where
  workStart : Int
  workEnd : Int
  workDays : List Int
  minBreakBetweenTasks : Int
deriving DecidableEq, Repr

/-- The scheduler state touched by `autoScheduleTasks`. -/
structure Scheduler where
  tasks : List Task
  events : List Event
  settings : Settings
deriving DecidableEq, Repr

/-- Duration of a slot in minutes: `(slot.end - slot.start) / 60000`. -/
def slotDuration (s : Slot) : Int := s.stop - s.start

/-- Models `currentDate.getDay()` for the day with index `d`. -/
def dayOfWeek (d : Int) : Int := d % 7

/-- Models `dayStart`: the day at `settings.workingHours.start` o'clock. -/
def dayStartT (st : Settings) (d : Int) : Int := d * 1440 + st.workStart * 60

/-- Models `dayEnd`: the day at `settings.workingHours.end` o'clock. -/
def dayEndT (st : Settings) (d : Int) : Int := d * 1440 + st.workEnd * 60

/-- The day indices visited by the `while (currentDate < endDate)` loop of
`getAvailableSlots`: the first day is the one containing `startDate`
(`setHours(0,0,0,0)` floors to midnight) and days are visited while their
midnight is before `endDate`. -/
def dayList (startDate endDate : Int) : List Int :=
  let d0 := startDate / 1440
  (List.range ((endDate - 1) / 1440 + 1 - d0).toNat).map
    (fun (i : Nat) => d0 + (i : Int))

/-- The `dayEvents.forEach` sweep of `getAvailableSlots`: walk the (sorted)
events with a `timePointer`, emitting a gap before each event whose start is
ahead of the pointer, and advancing the pointer to
`max(timePointer, event.end)`.  Returns the emitted gaps and the final
pointer. -/
def sweep : List Event → Int → List Slot × Int
  | [], p => ([], p)
  | e :: rest, p =>
    let head := if p < e.start then [Slot.mk p e.start] else []
    let r := sweep rest (max p e.stop)
    (head ++ r.1, r.2)

/-- The comparator `(a, b) => a.start - b.start` of the per-day event sort:
`eventLE a b` states that it does not put `a` strictly after `b`. -/
def eventLE (a b : Event) : Prop := a.start ≤ b.start

instance : DecidableRel eventLE := fun a b => by
  unfold eventLE; infer_instance

instance : IsTotal Event eventLE :=
  ⟨by intro a b; simp only [eventLE]; omega⟩

instance : IsTrans Event eventLE :=
  ⟨by
    intro a b c hab hbc
    simp only [eventLE] at hab hbc ⊢
    omega⟩

/-- One iteration of the day loop of `getAvailableSlots`: the slots
contributed by day `d` (before the final short-slot filter). -/
def daySlotsFor (st : Settings) (fixedEvents : List Event) (startDate : Int)
    (d : Int) : List Slot :=
  if dayOfWeek d ∈ st.workDays then
    let dayStart := dayStartT st d
    let dayEnd := dayEndT st d
    let effectiveStart := max startDate dayStart
    if effectiveStart < dayEnd then
      let dayEvents :=
        List.insertionSort eventLE
          (fixedEvents.filter (fun e =>
            decide (e.start < dayEnd) && decide (e.stop > effectiveStart)))
      let r := sweep dayEvents effectiveStart
      r.1 ++ (if r.2 < dayEnd then [Slot.mk r.2 dayEnd] else [])
    else []
  else []

/-- The slot list built by `getAvailableSlots` before its final
`slots.filter` step. -/
def rawSlots (st : Settings) (events : List Event) (startDate endDate : Int) :
    List Slot :=
  let fixedEvents := events.filter (fun e => e.isFixed)
  (dayList startDate endDate).flatMap (daySlotsFor st fixedEvents startDate)

/-- Models `getAvailableSlots(startDate, endDate)`, including the final
filter discarding slots shorter than `minBreakBetweenTasks + 15` minutes. -/
def getAvailableSlots (st : Settings) (events : List Event)
    (startDate endDate : Int) : List Slot :=
  (rawSlots st events startDate endDate).filter
    (fun s => decide (slotDuration s ≥ st.minBreakBetweenTasks + 15))

/-- Models the reset loop at the top of `autoScheduleTasks`. -/
def resetTask (t : Task) : Task :=
  { t with isScheduled := false, scheduledStart := none, scheduledEnd := none }

/-- Models `totalDuration = task.duration + task.commuteToDuration +
task.commuteFromDuration`. -/
def totalDuration (t : Task) : Int :=
  t.duration + t.commuteToDuration + t.commuteFromDuration

/-- The comparator of the task sort: `b.priority - a.priority` when the
priorities differ, otherwise `a.deadline - b.deadline`; `taskLE a b` states
that the comparator does not put `a` strictly after `b`. -/
def taskLE (a b : Task) : Prop :=
  b.priority < a.priority ∨ (a.priority = b.priority ∧ a.deadline ≤ b.deadline)

instance : DecidableRel taskLE := fun a b => by
  unfold taskLE; infer_instance

/-- The comparator lifted to index-task pairs (object identities). -/
def queueLE (a b : Nat × Task) : Prop := taskLE a.2 b.2

instance : DecidableRel queueLE := fun a b => by
  unfold queueLE; infer_instance

/-- Models `[...this.tasks].sort(comparator)`: the stable sort of the task
list, with each task paired with its position in `this.tasks`. -/
def queueOf (tasks : List Task) : List (Nat × Task) :=
  List.insertionSort queueLE tasks.enum

/-- Where the task itself starts inside its slot: after the commute-to leg
when there is one (`currentTime` after step 1 of the placement). -/
def placeStart (t : Task) (c0 : Int) : Int :=
  if 0 < t.commuteToDuration then c0 + t.commuteToDuration else c0

/-- Models `task.scheduledEnd` for a placement whose slot starts at `c0`. -/
def placeTaskEnd (t : Task) (c0 : Int) : Int :=
  placeStart t c0 + t.duration

/-- The final `currentTime` cursor after the optional commute-from leg. -/
def placeCursorEnd (t : Task) (c0 : Int) : Int :=
  if 0 < t.commuteFromDuration then placeTaskEnd t c0 + t.commuteFromDuration
  else placeTaskEnd t c0

/-- The events pushed onto `this.events` when task `t` is placed into a slot
starting at `c0`: optional commute-to, the task event, optional
commute-from. -/
def placedEvents (t : Task) (c0 : Int) : List Event :=
  (if 0 < t.commuteToDuration then
      [⟨"Commute to " ++ t.name, c0, c0 + t.commuteToDuration,
        false, false, true, none⟩]
    else []) ++
  [⟨t.name, placeStart t c0, placeTaskEnd t c0, false, true, false,
    some t.id⟩] ++
  (if 0 < t.commuteFromDuration then
      [⟨"Commute from " ++ t.name, placeTaskEnd t c0, placeCursorEnd t c0,
        false, false, true, none⟩]
    else [])

/-- The mutation of the task object when it is scheduled at slot start
`c0`. -/
def scheduleAt (t : Task) (c0 : Int) : Task :=
  { t with isScheduled := true, scheduledStart := some (placeStart t c0),
           scheduledEnd := some (placeTaskEnd t c0) }

/-- Models the `for (let i = 0; ...)` scan over `availableSlots`: find the
first slot whose duration is at least `totalDuration t`; on success return
the chosen slot's start and the slot list with the chosen slot shrunk in
place (`slot.start = currentTime + minBreak`). -/
def tryPlace (β : Int) (t : Task) : List Slot → Option (Int × List Slot)
  | [] => none
  | s :: rest =>
    if slotDuration s ≥ totalDuration t then
      some (s.start, Slot.mk (placeCursorEnd t s.start + β) s.stop :: rest)
    else
      match tryPlace β t rest with
      | none => none
      | some r => some (r.1, s :: r.2)

/-- The mutable state threaded through the `taskQueue.forEach` loop. -/
structure PassState where
  tasks : List Task
  slots : List Slot
  events : List Event
deriving DecidableEq, Repr

/-- One iteration of `taskQueue.forEach(task => ...)`: attempt to place the
task (known to sit at position `p.1` of `this.tasks`); on success update the
task in place, shrink the chosen slot and push the placement events. -/
def stepTask (β : Int) (st : PassState) (p : Nat × Task) : PassState :=
  match tryPlace β p.2 st.slots with
  | none => st
  | some r =>
    { tasks := st.tasks.set p.1 (scheduleAt p.2 r.1),
      slots := r.2,
      events := st.events ++ placedEvents p.2 r.1 }

/-- Models `autoScheduleTasks()`;  `now` stands for `new Date()`. -/
def autoScheduleTasks (now : Int) (sch : Scheduler) : Scheduler :=
  let tasks0 := sch.tasks.map resetTask
  let events0 := sch.events.filter (fun e => e.isFixed)
  let queue := queueOf tasks0
  let slots := getAvailableSlots sch.settings events0 now (now + 14 * 1440)
  let fin := queue.foldl (stepTask sch.settings.minBreakBetweenTasks)
    ⟨tasks0, slots, events0⟩
  { tasks := fin.tasks, events := fin.events, settings := sch.settings }

/-- The unscheduled-task output (`this.tasks.filter(t => !t.isScheduled)`). -/
def unscheduledTasks (sch : Scheduler) : List Task :=
  sch.tasks.filter (fun t => !t.isScheduled)

/-! ### Helper lemmas about the slot scan -/

theorem tryPlace_eq_none_iff (β : Int) (t : Task) :
    ∀ slots : List Slot,
      tryPlace β t slots = none ↔
        ∀ s ∈ slots, slotDuration s < totalDuration t := by
  intro slots
  induction slots with
  | nil => simp [tryPlace]
  | cons s rest ih =>
    by_cases hfit : slotDuration s ≥ totalDuration t
    · simp only [tryPlace, if_pos hfit]
      constructor
      · intro h; cases h
      · intro h
        have := h s (List.mem_cons_self s rest)
        omega
    · simp only [tryPlace, if_neg hfit]
      constructor
      · intro h s' hs'
        rcases List.mem_cons.mp hs' with rfl | hmem
        · omega
        · rcases hrec : tryPlace β t rest with _ | r
          · exact (ih.mp hrec) s' hmem
          · rw [hrec] at h; cases h
      · intro h
        have hrest : tryPlace β t rest = none :=
          ih.mpr (fun s' hs' => h s' (List.mem_cons_of_mem s hs'))
        rw [hrest]

theorem tryPlace_eq_some_spec (β : Int) (t : Task) :
    ∀ (slots : List Slot) (c0 : Int) (slots' : List Slot),
      tryPlace β t slots = some (c0, slots') →
      ∃ j, ∃ hj : j < slots.length,
        c0 = (slots.get ⟨j, hj⟩).start ∧
        totalDuration t ≤ slotDuration (slots.get ⟨j, hj⟩) ∧
        (∀ i (hi : i < slots.length), i < j →
          slotDuration (slots.get ⟨i, hi⟩) < totalDuration t) ∧
        slots' = slots.set j
          (Slot.mk (placeCursorEnd t c0 + β) (slots.get ⟨j, hj⟩).stop) := by
  intro slots
  induction slots with
  | nil => intro c0 slots' h; cases h
  | cons s rest ih =>
    intro c0 slots' h
    by_cases hfit : slotDuration s ≥ totalDuration t
    · simp only [tryPlace, if_pos hfit, Option.some.injEq, Prod.mk.injEq] at h
      refine ⟨0, Nat.succ_pos _, ?_, ?_, ?_, ?_⟩
      · exact h.1.symm
      · simpa using hfit
      · intro i hi hlt; omega
      · simp [List.set, ← h.1, ← h.2]
    · simp only [tryPlace, if_neg hfit] at h
      rcases hrec : tryPlace β t rest with _ | r
      · rw [hrec] at h; cases h
      · rw [hrec] at h
        simp only [Option.some.injEq, Prod.mk.injEq] at h
        obtain ⟨hc0, hslots'⟩ := h
        obtain ⟨j, hj, hstart, hdur, hbefore, hset⟩ :=
          ih r.1 r.2 (by rw [hrec])
        refine ⟨j + 1, Nat.succ_lt_succ hj, ?_, ?_, ?_, ?_⟩
        · simpa [hc0] using hstart
        · simpa using hdur
        · intro i hi hlt
          cases i with
          | zero => simpa using (by omega : slotDuration s < totalDuration t)
          | succ i' =>
            have : i' < j := Nat.lt_of_succ_lt_succ hlt
            have hi' : i' < rest.length := Nat.lt_of_succ_lt_succ hi
            simpa using hbefore i' hi' this
        · rw [← hslots', hset, hc0]
          simp [List.set]

theorem placedEvents_getLast (t : Task) (c0 : Int) :
    ∃ last : Event, (placedEvents t c0).getLast? = some last ∧
      last.stop = placeCursorEnd t c0 := by
  unfold placedEvents placeCursorEnd
  by_cases hTo : 0 < t.commuteToDuration <;>
    by_cases hFrom : 0 < t.commuteFromDuration <;>
      simp [hTo, hFrom, List.getLast?]

/-! ### C1: first-fit placement and in-gap layout -/

/-- C1: the engine computes `totalDuration = duration + commuteTo + commuteFrom`
and places the task in the first slot (in the scan order) whose duration is at
least `totalDuration`; no later slot is chosen while an earlier fitting slot
exists.  Within the chosen slot the commute-to leg starts at the slot's start,
the task starts right after the commute-to leg (or at the slot start when
there is none), and the commute-from leg starts right after the task. -/
theorem c1_first_fit_placement (β : Int) (t : Task) (slots : List Slot)
    (c0 : Int) (slots' : List Slot)
    (h : tryPlace β t slots = some (c0, slots')) :
    totalDuration t = t.duration + t.commuteToDuration + t.commuteFromDuration ∧
    (∃ j, ∃ hj : j < slots.length,
      c0 = (slots.get ⟨j, hj⟩).start ∧
      totalDuration t ≤ slotDuration (slots.get ⟨j, hj⟩) ∧
      ∀ i (hi : i < slots.length), i < j →
        slotDuration (slots.get ⟨i, hi⟩) < totalDuration t) ∧
    (0 < t.commuteToDuration →
      (⟨"Commute to " ++ t.name, c0, c0 + t.commuteToDuration,
        false, false, true, none⟩ : Event) ∈ placedEvents t c0 ∧
      placeStart t c0 = c0 + t.commuteToDuration) ∧
    (t.commuteToDuration ≤ 0 → placeStart t c0 = c0) ∧
    (⟨t.name, placeStart t c0, placeStart t c0 + t.duration,
      false, true, false, some t.id⟩ : Event) ∈ placedEvents t c0 ∧
    (scheduleAt t c0).scheduledStart = some (placeStart t c0) ∧
    (scheduleAt t c0).scheduledEnd = some (placeStart t c0 + t.duration) ∧
    (0 < t.commuteFromDuration →
      (⟨"Commute from " ++ t.name, placeStart t c0 + t.duration,
        placeStart t c0 + t.duration + t.commuteFromDuration,
        false, false, true, none⟩ : Event) ∈ placedEvents t c0) := by
  obtain ⟨j, hj, hstart, hdur, hbefore, _⟩ :=
    tryPlace_eq_some_spec β t slots c0 slots' h
  refine ⟨rfl, ⟨j, hj, hstart, hdur, fun i hi hij => hbefore i hi hij⟩,
    ?_, ?_, ?_, rfl, ?_, ?_⟩
  · intro hTo
    constructor
    · unfold placedEvents
      simp [hTo]
    · unfold placeStart
      rw [if_pos hTo]
  · intro hTo
    unfold placeStart
    rw [if_neg (by omega)]
  · unfold placedEvents placeTaskEnd
    by_cases hTo : 0 < t.commuteToDuration <;>
      by_cases hFrom : 0 < t.commuteFromDuration <;>
        simp [hTo, hFrom]
  · unfold scheduleAt placeTaskEnd
    simp
  · intro hFrom
    unfold placedEvents placeCursorEnd placeTaskEnd
    by_cases hTo : 0 < t.commuteToDuration <;> simp [hTo, hFrom]

/-- Concrete input for the C1 witness: a task with both commute legs and a
slot list whose first slot is too short. -/
def w1task : Task := ⟨1, "w", 2, 100, 30, 10, 5, false, none, none⟩

/-- Slot list for the C1 witness. -/
def w1slots : List Slot := [⟨0, 20⟩, ⟨100, 200⟩]

/-- Witness for C1 at a concrete input. -/
theorem c1_first_fit_placement_witness :
    tryPlace 15 w1task w1slots = some (100, [⟨0, 20⟩, ⟨160, 200⟩]) ∧
    (totalDuration w1task =
      w1task.duration + w1task.commuteToDuration + w1task.commuteFromDuration ∧
    (∃ j, ∃ hj : j < w1slots.length,
      (100 : Int) = (w1slots.get ⟨j, hj⟩).start ∧
      totalDuration w1task ≤ slotDuration (w1slots.get ⟨j, hj⟩) ∧
      ∀ i (hi : i < w1slots.length), i < j →
        slotDuration (w1slots.get ⟨i, hi⟩) < totalDuration w1task) ∧
    (0 < w1task.commuteToDuration →
      (⟨"Commute to " ++ w1task.name, 100, 100 + w1task.commuteToDuration,
        false, false, true, none⟩ : Event) ∈ placedEvents w1task 100 ∧
      placeStart w1task 100 = 100 + w1task.commuteToDuration) ∧
    (w1task.commuteToDuration ≤ 0 → placeStart w1task 100 = 100) ∧
    (⟨w1task.name, placeStart w1task 100, placeStart w1task 100 + w1task.duration,
      false, true, false, some w1task.id⟩ : Event) ∈ placedEvents w1task 100 ∧
    (scheduleAt w1task 100).scheduledStart = some (placeStart w1task 100) ∧
    (scheduleAt w1task 100).scheduledEnd =
      some (placeStart w1task 100 + w1task.duration) ∧
    (0 < w1task.commuteFromDuration →
      (⟨"Commute from " ++ w1task.name, placeStart w1task 100 + w1task.duration,
        placeStart w1task 100 + w1task.duration + w1task.commuteFromDuration,
        false, false, true, none⟩ : Event) ∈ placedEvents w1task 100)) :=
  ⟨by decide, c1_first_fit_placement 15 w1task w1slots 100 [⟨0, 20⟩, ⟨160, 200⟩]
    (by decide)⟩

/-! ### C6: frame effect of a placement on the slot list -/

/-- C6: when a task is placed, the only change to the slot list is that the
chosen slot's start becomes the end of the last placed piece plus
`minBreakBetweenTasks`; the chosen slot's end is unchanged, the slot stays in
the list (the length is preserved), and every other slot is unchanged. -/
theorem c6_slot_shrink_frame (β : Int) (t : Task) (slots : List Slot)
    (c0 : Int) (slots' : List Slot)
    (h : tryPlace β t slots = some (c0, slots')) :
    slots'.length = slots.length ∧
    ∃ j, ∃ hj : j < slots.length, ∃ hj' : j < slots'.length,
      c0 = (slots.get ⟨j, hj⟩).start ∧
      (∀ i (hi : i < slots.length) (hi' : i < slots'.length), i ≠ j →
        slots'.get ⟨i, hi'⟩ = slots.get ⟨i, hi⟩) ∧
      (slots'.get ⟨j, hj'⟩).stop = (slots.get ⟨j, hj⟩).stop ∧
      ∃ last : Event, (placedEvents t c0).getLast? = some last ∧
        (slots'.get ⟨j, hj'⟩).start = last.stop + β := by
  obtain ⟨j, hj, hstart, _, _, hset⟩ :=
    tryPlace_eq_some_spec β t slots c0 slots' h
  obtain ⟨last, hlast, hstop⟩ := placedEvents_getLast t c0
  have hlen : slots'.length = slots.length := by
    rw [hset, List.length_set]
  have hj' : j < slots'.length := by omega
  refine ⟨hlen, j, hj, hj', hstart, ?_, ?_, last, hlast, ?_⟩
  · intro i hi hi' hne
    simp only [hset, List.get_eq_getElem, List.getElem_set]
    rw [if_neg (by omega)]
  · simp [hset, List.get_eq_getElem, List.getElem_set]
  · simp [hset, List.get_eq_getElem, List.getElem_set, hstop]

/-- Witness for C6 at a concrete input. -/
theorem c6_slot_shrink_frame_witness :
    tryPlace 15 w1task w1slots = some (100, [⟨0, 20⟩, ⟨160, 200⟩]) ∧
    (([⟨0, 20⟩, ⟨160, 200⟩] : List Slot).length = w1slots.length ∧
    ∃ j, ∃ hj : j < w1slots.length,
      ∃ hj' : j < ([⟨0, 20⟩, ⟨160, 200⟩] : List Slot).length,
      (100 : Int) = (w1slots.get ⟨j, hj⟩).start ∧
      (∀ i (hi : i < w1slots.length)
        (hi' : i < ([⟨0, 20⟩, ⟨160, 200⟩] : List Slot).length), i ≠ j →
        ([⟨0, 20⟩, ⟨160, 200⟩] : List Slot).get ⟨i, hi'⟩ = w1slots.get ⟨i, hi⟩) ∧
      (([⟨0, 20⟩, ⟨160, 200⟩] : List Slot).get ⟨j, hj'⟩).stop =
        (w1slots.get ⟨j, hj⟩).stop ∧
      ∃ last : Event, (placedEvents w1task 100).getLast? = some last ∧
        (([⟨0, 20⟩, ⟨160, 200⟩] : List Slot).get ⟨j, hj'⟩).start =
          last.stop + 15) :=
  ⟨by decide, c6_slot_shrink_frame 15 w1task w1slots 100 [⟨0, 20⟩, ⟨160, 200⟩]
    (by decide)⟩

/-! ### C5: the short-gap filter -/

/-- C5: every slot returned by `getAvailableSlots` lasts at least
`minBreakBetweenTasks + 15` minutes; an emitted (raw) slot shorter than that
threshold is discarded, and one at least as long is kept. -/
theorem c5_short_gap_filter (st : Settings) (events : List Event) (a b : Int) :
    (∀ g ∈ getAvailableSlots st events a b,
      st.minBreakBetweenTasks + 15 ≤ slotDuration g) ∧
    (∀ g ∈ rawSlots st events a b,
      slotDuration g < st.minBreakBetweenTasks + 15 →
        g ∉ getAvailableSlots st events a b) ∧
    (∀ g ∈ rawSlots st events a b,
      st.minBreakBetweenTasks + 15 ≤ slotDuration g →
        g ∈ getAvailableSlots st events a b) := by
  refine ⟨?_, ?_, ?_⟩
  · intro g hg
    have := (List.mem_filter.mp hg).2
    simpa [ge_iff_le] using of_decide_eq_true this
  · intro g _ hshort hmem
    have := (List.mem_filter.mp hmem).2
    have := of_decide_eq_true this
    omega
  · intro g hg hlong
    exact List.mem_filter.mpr ⟨hg, decide_eq_true (by simpa [ge_iff_le] using hlong)⟩

/-- Settings for the C5 witness. -/
def w5st : Settings := ⟨9, 17, [0], 15⟩

/-- Events for the C5 witness: they leave a 60-minute and a 20-minute raw
gap. -/
def w5events : List Event :=
  [⟨"e1", 600, 660, true, false, false, none⟩,
   ⟨"e2", 680, 1020, true, false, false, none⟩]

/-- Witness for C5 at a concrete input: the 20-minute raw gap `[660, 680)` is
emitted and discarded, the 60-minute gap is kept. -/
theorem c5_short_gap_filter_witness :
    (⟨660, 680⟩ : Slot) ∈ rawSlots w5st w5events 0 1440 ∧
    slotDuration ⟨660, 680⟩ < w5st.minBreakBetweenTasks + 15 ∧
    (⟨660, 680⟩ : Slot) ∉ getAvailableSlots w5st w5events 0 1440 ∧
    (∀ g ∈ getAvailableSlots w5st w5events 0 1440,
      w5st.minBreakBetweenTasks + 15 ≤ slotDuration g) ∧
    (⟨540, 600⟩ : Slot) ∈ getAvailableSlots w5st w5events 0 1440 :=
  ⟨by decide, by decide,
    (c5_short_gap_filter w5st w5events 0 1440).2.1 ⟨660, 680⟩ (by decide)
      (by decide),
    (c5_short_gap_filter w5st w5events 0 1440).1,
    (c5_short_gap_filter w5st w5events 0 1440).2.2 ⟨540, 600⟩ (by decide)
      (by decide)⟩

/-! ### C2: ordering of the task queue -/

/-- Strict version of the queue order: `taskLT a b` says the comparator puts
`a` strictly before `b` (higher priority, or equal priority and strictly
earlier deadline). -/
def taskLT (a b : Task) : Prop :=
  b.priority < a.priority ∨ (a.priority = b.priority ∧ a.deadline < b.deadline)

instance : DecidableRel taskLT := fun a b => by
  unfold taskLT; infer_instance

instance : IsTotal (Nat × Task) queueLE :=
  ⟨by intro a b; simp only [queueLE, taskLE]; omega⟩

instance : IsTrans (Nat × Task) queueLE :=
  ⟨by
    intro a b c hab hbc
    simp only [queueLE, taskLE] at hab hbc ⊢
    omega⟩

theorem pairwise_tie_orderedInsert (a : Nat × Task) :
    ∀ l : List (Nat × Task), (∀ b ∈ l, a.1 < b.1) →
      l.Pairwise (fun x y =>
        x.2.priority = y.2.priority ∧ x.2.deadline = y.2.deadline → x.1 < y.1) →
      (List.orderedInsert queueLE a l).Pairwise (fun x y =>
        x.2.priority = y.2.priority ∧ x.2.deadline = y.2.deadline →
          x.1 < y.1) := by
  intro l
  induction l with
  | nil => intro _ _; simp
  | cons b rest ih =>
    intro hall hp
    by_cases hab : queueLE a b
    · simp only [List.orderedInsert, if_pos hab]
      refine List.Pairwise.cons ?_ hp
      intro x hx _
      exact hall x hx
    · simp only [List.orderedInsert, if_neg hab]
      refine List.Pairwise.cons ?_
        (ih (fun c hc => hall c (List.mem_cons_of_mem b hc))
          (List.Pairwise.of_cons hp))
      intro x hx htie
      rcases (List.mem_orderedInsert queueLE).mp hx with rfl | hxr
      · exfalso
        apply hab
        unfold queueLE taskLE
        right
        exact ⟨htie.1.symm, le_of_eq htie.2.symm⟩
      · exact (List.rel_of_pairwise_cons hp hxr) htie

theorem pairwise_tie_insertionSort :
    ∀ l : List (Nat × Task), l.Pairwise (fun x y => x.1 < y.1) →
      (List.insertionSort queueLE l).Pairwise (fun x y =>
        x.2.priority = y.2.priority ∧ x.2.deadline = y.2.deadline →
          x.1 < y.1) := by
  intro l
  induction l with
  | nil => intro _; simp
  | cons x rest ih =>
    intro hp
    simp only [List.insertionSort]
    refine pairwise_tie_orderedInsert x _ ?_ (ih (List.Pairwise.of_cons hp))
    intro b hb
    have hbmem : b ∈ rest := (List.mem_insertionSort queueLE).mp hb
    exact List.rel_of_pairwise_cons hp hbmem

theorem queueOf_tie_stable (ts : List Task) :
    (queueOf ts).Pairwise (fun x y =>
      x.2.priority = y.2.priority ∧ x.2.deadline = y.2.deadline →
        x.1 < y.1) := by
  have henum : ts.enum.Pairwise (fun x y => x.1 < y.1) := by
    have h1 : (ts.enum.map Prod.fst).Pairwise (· < ·) := by
      rw [List.enum_map_fst]
      exact List.pairwise_lt_range _
    exact List.pairwise_map.mp h1
  exact pairwise_tie_insertionSort ts.enum henum

/-- C2: the queue built by the engine is a permutation of the (indexed) task
list, sorted by priority descending with deadline-ascending tie-break; any
strictly preferred task comes earlier in the queue, and full ties keep the
original input order (stable sort). -/
theorem c2_queue_order (ts : List Task) (i j : Nat)
    (hij : i < j) (hj : j < (queueOf ts).length) :
    (queueOf ts).Perm ts.enum ∧
    taskLE ((queueOf ts).get ⟨i, Nat.lt_trans hij hj⟩).2
      ((queueOf ts).get ⟨j, hj⟩).2 ∧
    ¬ taskLT ((queueOf ts).get ⟨j, hj⟩).2
      ((queueOf ts).get ⟨i, Nat.lt_trans hij hj⟩).2 ∧
    (((queueOf ts).get ⟨i, Nat.lt_trans hij hj⟩).2.priority =
        ((queueOf ts).get ⟨j, hj⟩).2.priority ∧
      ((queueOf ts).get ⟨i, Nat.lt_trans hij hj⟩).2.deadline =
        ((queueOf ts).get ⟨j, hj⟩).2.deadline →
      ((queueOf ts).get ⟨i, Nat.lt_trans hij hj⟩).1 <
        ((queueOf ts).get ⟨j, hj⟩).1) := by
  have hsorted : (queueOf ts).Pairwise queueLE :=
    List.sorted_insertionSort queueLE ts.enum
  have hle : queueLE ((queueOf ts).get ⟨i, Nat.lt_trans hij hj⟩)
      ((queueOf ts).get ⟨j, hj⟩) :=
    List.pairwise_iff_get.mp hsorted ⟨i, Nat.lt_trans hij hj⟩ ⟨j, hj⟩ hij
  have hstable := List.pairwise_iff_get.mp (queueOf_tie_stable ts)
    ⟨i, Nat.lt_trans hij hj⟩ ⟨j, hj⟩ hij
  refine ⟨List.perm_insertionSort queueLE ts.enum, hle, ?_, hstable⟩
  simp only [queueLE, taskLE] at hle
  simp only [taskLT]
  omega

/-- Tasks for the C2 witness: queue must put the priority-5 task first. -/
def w2ts : List Task :=
  [⟨0, "low", 1, 50, 30, 0, 0, false, none, none⟩,
   ⟨7, "high", 5, 90, 30, 0, 0, false, none, none⟩]

/-- Witness for C2 at a concrete input. -/
theorem c2_queue_order_witness :
    (queueOf w2ts).Perm w2ts.enum ∧
    taskLE ((queueOf w2ts).get ⟨0, by decide⟩).2
      ((queueOf w2ts).get ⟨1, by decide⟩).2 ∧
    ¬ taskLT ((queueOf w2ts).get ⟨1, by decide⟩).2
      ((queueOf w2ts).get ⟨0, by decide⟩).2 ∧
    (((queueOf w2ts).get ⟨0, by decide⟩).2.priority =
        ((queueOf w2ts).get ⟨1, by decide⟩).2.priority ∧
      ((queueOf w2ts).get ⟨0, by decide⟩).2.deadline =
        ((queueOf w2ts).get ⟨1, by decide⟩).2.deadline →
      ((queueOf w2ts).get ⟨0, by decide⟩).1 <
        ((queueOf w2ts).get ⟨1, by decide⟩).1) :=
  c2_queue_order w2ts 0 1 (by decide) (by decide)

/-! ### C9: deadlines never constrain placement times -/

/-- Settings for the C9 example: every weekday is a working day. -/
def w9st : Settings := ⟨9, 17, [0, 1, 2, 3, 4, 5, 6], 15⟩

/-- A task whose deadline (10:00 of day 0) is already in the past at
scheduling time (noon of day 0). -/
def w9task : Task := ⟨0, "late", 1, 600, 60, 0, 0, false, none, none⟩

/-- Scheduler state for the C9 example. -/
def w9sch : Scheduler := ⟨[w9task], [], w9st⟩

/-- C9: the deadline is only a sort key; the engine happily schedules a task
entirely after its deadline.  Concretely, a task with deadline 600 (10:00) is
marked scheduled with `scheduledStart = 720 > 600`. -/
theorem c9_deadline_ignored :
    ((autoScheduleTasks 720 w9sch).tasks.map
      (fun t => (t.isScheduled, t.scheduledStart, t.scheduledEnd, t.deadline))) =
      [(true, some 720, some 780, 600)] ∧ (600 : Int) < 720 := by
  constructor
  · rfl
  · decide

/-! ### C7: an unplaceable task stays unscheduled and touches nothing -/

theorem stepTask_eq_of_no_fit (β : Int) (st : PassState) (p : Nat × Task)
    (h : ∀ s ∈ st.slots, slotDuration s < totalDuration p.2) :
    stepTask β st p = st := by
  unfold stepTask
  rw [(tryPlace_eq_none_iff β p.2 st.slots).mpr h]

theorem stepTask_slots_dur_lt (β D : Int) (hβ : 0 ≤ β) (st : PassState)
    (p : Nat × Task) (hdur : 0 ≤ p.2.duration)
    (h : ∀ s ∈ st.slots, slotDuration s < D) :
    ∀ s ∈ (stepTask β st p).slots, slotDuration s < D := by
  unfold stepTask
  rcases htry : tryPlace β p.2 st.slots with _ | r
  · exact h
  · intro s hs
    obtain ⟨j, hj, hstart, _, _, hset⟩ :=
      tryPlace_eq_some_spec β p.2 st.slots r.1 r.2 (by rw [htry])
    simp only at hs
    rw [hset] at hs
    rcases List.mem_or_eq_of_mem_set hs with hmem | rfl
    · exact h s hmem
    · have hold := h (st.slots.get ⟨j, hj⟩) (List.get_mem _ _ _)
      have hcur : st.slots.get ⟨j, hj⟩ = ⟨r.1, (st.slots.get ⟨j, hj⟩).stop⟩ := by
        cases hget : st.slots.get ⟨j, hj⟩
        simp only [hget] at hstart ⊢
        rw [hstart]
      have hadv : r.1 + p.2.duration ≤ placeCursorEnd p.2 r.1 := by
        unfold placeCursorEnd placeTaskEnd placeStart
        by_cases hTo : 0 < p.2.commuteToDuration <;>
          by_cases hFrom : 0 < p.2.commuteFromDuration <;>
            simp [hTo, hFrom] <;> omega
      rw [hcur] at hold
      unfold slotDuration at hold ⊢
      simp only at hold ⊢
      omega

theorem foldl_unplaceable (β : Int) (τ : Task) (k : Nat) (hβ : 0 ≤ β) :
    ∀ (queue : List (Nat × Task)) (st : PassState),
      (∀ p ∈ queue, 0 ≤ p.2.duration) →
      (∀ p ∈ queue, p.1 = k → p.2 = τ) →
      (∀ s ∈ st.slots, slotDuration s < totalDuration τ) →
      st.tasks[k]? = some τ →
      (queue.foldl (stepTask β) st).tasks[k]? = some τ ∧
        ∀ s ∈ (queue.foldl (stepTask β) st).slots,
          slotDuration s < totalDuration τ := by
  intro queue
  induction queue with
  | nil => intro st _ _ hsl htk; exact ⟨htk, hsl⟩
  | cons p rest ih =>
    intro st hd hk hsl htk
    simp only [List.foldl_cons]
    by_cases hpk : p.1 = k
    · have hpτ : p.2 = τ := hk p (List.mem_cons_self p rest) hpk
      have heq : stepTask β st p = st := by
        apply stepTask_eq_of_no_fit
        rw [hpτ]
        exact hsl
      rw [heq]
      exact ih st (fun q hq => hd q (List.mem_cons_of_mem p hq))
        (fun q hq => hk q (List.mem_cons_of_mem p hq)) hsl htk
    · have hsl' : ∀ s ∈ (stepTask β st p).slots, slotDuration s < totalDuration τ :=
        stepTask_slots_dur_lt β (totalDuration τ) hβ st p
          (hd p (List.mem_cons_self p rest)) hsl
      have htk' : (stepTask β st p).tasks[k]? = some τ := by
        unfold stepTask
        rcases tryPlace β p.2 st.slots with _ | r
        · exact htk
        · show (st.tasks.set p.1 (scheduleAt p.2 r.1))[k]? = some τ
          rw [List.getElem?_set_ne hpk]
          exact htk
      exact ih (stepTask β st p) (fun q hq => hd q (List.mem_cons_of_mem p hq))
        (fun q hq => hk q (List.mem_cons_of_mem p hq)) hsl' htk'

theorem mem_queueOf_getElem (ts : List Task) (p : Nat × Task)
    (hp : p ∈ queueOf ts) : ts[p.1]? = some p.2 := by
  have hmem : p ∈ ts.enum := (List.perm_insertionSort queueLE ts.enum).mem_iff.mp hp
  cases p
  exact List.mk_mem_enum_iff_getElem?.mp hmem

/-- C7: a task whose total duration exceeds the duration of every slot of the
horizon ends the pass unscheduled (`isScheduled = false`, both scheduled
times `none`), shows up in the unscheduled output, and its processing step
leaves the pass state (slots, events, tasks) completely unchanged. -/
theorem c7_unplaceable_task (sch : Scheduler) (now : Int) (k : Nat) (τ : Task)
    (hτ : sch.tasks[k]? = some τ)
    (hβ : 0 ≤ sch.settings.minBreakBetweenTasks)
    (hdur : ∀ t ∈ sch.tasks, 0 ≤ t.duration)
    (hbig : ∀ s ∈ getAvailableSlots sch.settings
        (sch.events.filter (fun e => e.isFixed)) now (now + 14 * 1440),
      slotDuration s < totalDuration τ) :
    (autoScheduleTasks now sch).tasks[k]? = some (resetTask τ) ∧
    resetTask τ ∈ unscheduledTasks (autoScheduleTasks now sch) ∧
    (resetTask τ).isScheduled = false ∧
    (resetTask τ).scheduledStart = none ∧
    (resetTask τ).scheduledEnd = none ∧
    (∀ st : PassState, (∀ s ∈ st.slots, slotDuration s < totalDuration τ) →
      stepTask sch.settings.minBreakBetweenTasks st (k, resetTask τ) = st) := by
  have htot : totalDuration (resetTask τ) = totalDuration τ := rfl
  have hmain := foldl_unplaceable sch.settings.minBreakBetweenTasks
    (resetTask τ) k hβ (queueOf (sch.tasks.map resetTask))
    ⟨sch.tasks.map resetTask,
      getAvailableSlots sch.settings (sch.events.filter (fun e => e.isFixed))
        now (now + 14 * 1440),
      sch.events.filter (fun e => e.isFixed)⟩
    (by
      intro p hp
      have := mem_queueOf_getElem _ p hp
      rw [List.getElem?_map] at this
      rcases hsome : sch.tasks[p.1]? with _ | t
      · rw [hsome] at this; cases this
      · rw [hsome] at this
        have h2 : resetTask t = p.2 := Option.some.inj this
        have hmem : t ∈ sch.tasks := by
          obtain ⟨h1, h2⟩ := List.getElem?_eq_some.mp hsome
          rw [← h2]
          exact List.getElem_mem h1
        rw [← h2]
        exact hdur t hmem)
    (by
      intro p hp hpk
      have := mem_queueOf_getElem _ p hp
      rw [hpk, List.getElem?_map, hτ] at this
      exact (Option.some.inj this).symm)
    (by
      intro s hs
      rw [htot]
      exact hbig s hs)
    (by rw [List.getElem?_map, hτ]; rfl)
  refine ⟨hmain.1, ?_, rfl, rfl, rfl, ?_⟩
  · unfold unscheduledTasks
    apply List.mem_filter.mpr
    constructor
    · obtain ⟨h1, h2⟩ := List.getElem?_eq_some.mp hmain.1
      rw [← h2]
      exact List.getElem_mem h1
    · rfl
  · intro st hst
    apply stepTask_eq_of_no_fit
    intro s hs
    rw [htot]
    exact hst s hs

/-- Settings for the C7 witness: Sundays only. -/
def w7st : Settings := ⟨9, 17, [0], 15⟩

/-- A 9999-minute task that fits no 480-minute working day. -/
def w7task : Task := ⟨0, "big", 1, 100, 9999, 0, 0, true, some 1, some 2⟩

/-- Scheduler state for the C7 witness. -/
def w7sch : Scheduler := ⟨[w7task], [], w7st⟩

/-- Witness for C7 at a concrete input. -/
theorem c7_unplaceable_task_witness :
    (autoScheduleTasks 0 w7sch).tasks[0]? = some (resetTask w7task) ∧
    resetTask w7task ∈ unscheduledTasks (autoScheduleTasks 0 w7sch) ∧
    (resetTask w7task).isScheduled = false ∧
    (resetTask w7task).scheduledStart = none ∧
    (resetTask w7task).scheduledEnd = none ∧
    (∀ st : PassState,
      (∀ s ∈ st.slots, slotDuration s < totalDuration w7task) →
      stepTask w7st.minBreakBetweenTasks st (0, resetTask w7task) = st) :=
  c7_unplaceable_task w7sch 0 0 w7task (by decide) (by decide)
    (by decide) (by decide)

/-! ### C8: determinism and idempotence of the placement pass -/

theorem placedEvents_isFixed_false (t : Task) (c0 : Int) :
    ∀ e ∈ placedEvents t c0, e.isFixed = false := by
  intro e he
  unfold placedEvents at he
  by_cases hTo : 0 < t.commuteToDuration <;>
    by_cases hFrom : 0 < t.commuteFromDuration <;>
      simp [hTo, hFrom] at he <;>
        rcases he with rfl | rfl | rfl <;> rfl

theorem foldl_events_extra (β : Int) :
    ∀ (queue : List (Nat × Task)) (st : PassState),
      ∃ extra : List Event,
        (queue.foldl (stepTask β) st).events = st.events ++ extra ∧
          ∀ e ∈ extra, e.isFixed = false := by
  intro queue
  induction queue with
  | nil => intro st; exact ⟨[], by simp⟩
  | cons p rest ih =>
    intro st
    simp only [List.foldl_cons]
    rcases htry : tryPlace β p.2 st.slots with _ | r
    · have hstep : stepTask β st p = st := by unfold stepTask; rw [htry]
      rw [hstep]
      exact ih st
    · have hstep : (stepTask β st p).events = st.events ++ placedEvents p.2 r.1 := by
        unfold stepTask; rw [htry]
      obtain ⟨extra, hev, hfix⟩ := ih (stepTask β st p)
      refine ⟨placedEvents p.2 r.1 ++ extra, ?_, ?_⟩
      · rw [hev, hstep, List.append_assoc]
      · intro e he
        rcases List.mem_append.mp he with h | h
        · exact placedEvents_isFixed_false p.2 r.1 e h
        · exact hfix e h

theorem list_set_getElem_self {α : Type} :
    ∀ (l : List α) (n : Nat) (a : α), l[n]? = some a → l.set n a = l := by
  intro l
  induction l with
  | nil => intro n a h; cases h
  | cons x t ih =>
    intro n a h
    cases n with
    | zero =>
      simp only [List.getElem?_cons_zero, Option.some.injEq] at h
      rw [List.set_cons_zero, h]
    | succ m =>
      simp only [List.getElem?_cons_succ] at h
      rw [List.set_cons_succ, ih m a h]

theorem foldl_tasks_reset (β : Int) :
    ∀ (queue : List (Nat × Task)) (st : PassState),
      (∀ p ∈ queue, st.tasks[p.1]? = some p.2) →
      (queue.map Prod.fst).Nodup →
      (queue.foldl (stepTask β) st).tasks.map resetTask =
        st.tasks.map resetTask := by
  intro queue
  induction queue with
  | nil => intro st _ _; rfl
  | cons p rest ih =>
    intro st hq hnd
    simp only [List.foldl_cons]
    have hndtail : (rest.map Prod.fst).Nodup := by
      simp only [List.map_cons, List.nodup_cons] at hnd
      exact hnd.2
    have hhead : p.1 ∉ rest.map Prod.fst := by
      simp only [List.map_cons, List.nodup_cons] at hnd
      exact hnd.1
    have hq' : ∀ q ∈ rest, (stepTask β st p).tasks[q.1]? = some q.2 := by
      intro q hqr
      have hne : p.1 ≠ q.1 := by
        intro heq
        exact hhead (heq ▸ List.mem_map_of_mem Prod.fst hqr)
      unfold stepTask
      rcases tryPlace β p.2 st.slots with _ | r
      · exact hq q (List.mem_cons_of_mem p hqr)
      · show (st.tasks.set p.1 (scheduleAt p.2 r.1))[q.1]? = some q.2
        rw [List.getElem?_set_ne hne]
        exact hq q (List.mem_cons_of_mem p hqr)
    have hstep : (stepTask β st p).tasks.map resetTask =
        st.tasks.map resetTask := by
      unfold stepTask
      rcases tryPlace β p.2 st.slots with _ | r
      · rfl
      · show (st.tasks.set p.1 (scheduleAt p.2 r.1)).map resetTask =
          st.tasks.map resetTask
        rw [List.map_set]
        have : resetTask (scheduleAt p.2 r.1) = resetTask p.2 := rfl
        rw [this]
        apply list_set_getElem_self
        rw [List.getElem?_map, hq p (List.mem_cons_self p rest)]
        rfl
    rw [ih (stepTask β st p) hq' hndtail, hstep]

theorem queueOf_fst_nodup (ts : List Task) :
    ((queueOf ts).map Prod.fst).Nodup := by
  have hperm : ((queueOf ts).map Prod.fst).Perm (ts.enum.map Prod.fst) :=
    (List.perm_insertionSort queueLE ts.enum).map Prod.fst
  rw [hperm.nodup_iff, List.enum_map_fst]
  exact List.nodup_range _

theorem autoScheduleTasks_congr (now : Int) (s1 s2 : Scheduler)
    (h1 : s1.tasks.map resetTask = s2.tasks.map resetTask)
    (h2 : s1.events.filter (fun e => e.isFixed) =
      s2.events.filter (fun e => e.isFixed))
    (h3 : s1.settings = s2.settings) :
    autoScheduleTasks now s1 = autoScheduleTasks now s2 := by
  unfold autoScheduleTasks
  rw [h1, h2, h3]

/-- C8: the pass is deterministic (it is a pure function of its inputs) and
idempotent: running `autoScheduleTasks` a second time on the state produced
by a first run, with the same `now`, reproduces exactly the same state —
same placements, same events, same unscheduled set. -/
theorem c8_pass_idempotent (now : Int) (sch : Scheduler) :
    autoScheduleTasks now (autoScheduleTasks now sch) =
      autoScheduleTasks now sch := by
  have hT : (autoScheduleTasks now sch).tasks.map resetTask =
      sch.tasks.map resetTask := by
    show ((queueOf (sch.tasks.map resetTask)).foldl
        (stepTask sch.settings.minBreakBetweenTasks)
        ⟨sch.tasks.map resetTask,
          getAvailableSlots sch.settings
            (sch.events.filter (fun e => e.isFixed)) now (now + 14 * 1440),
          sch.events.filter (fun e => e.isFixed)⟩).tasks.map resetTask =
      sch.tasks.map resetTask
    rw [foldl_tasks_reset _ _ _
      (fun p hp => mem_queueOf_getElem _ p hp) (queueOf_fst_nodup _)]
    show (sch.tasks.map resetTask).map resetTask = sch.tasks.map resetTask
    rw [List.map_map]
    rfl
  have hE : (autoScheduleTasks now sch).events.filter (fun e => e.isFixed) =
      sch.events.filter (fun e => e.isFixed) := by
    obtain ⟨extra, hev, hfix⟩ := foldl_events_extra
      sch.settings.minBreakBetweenTasks
      (queueOf (sch.tasks.map resetTask))
      ⟨sch.tasks.map resetTask,
        getAvailableSlots sch.settings
          (sch.events.filter (fun e => e.isFixed)) now (now + 14 * 1440),
        sch.events.filter (fun e => e.isFixed)⟩
    show ((queueOf (sch.tasks.map resetTask)).foldl
        (stepTask sch.settings.minBreakBetweenTasks)
        ⟨sch.tasks.map resetTask,
          getAvailableSlots sch.settings
            (sch.events.filter (fun e => e.isFixed)) now (now + 14 * 1440),
          sch.events.filter (fun e => e.isFixed)⟩).events.filter
        (fun e => e.isFixed) =
      sch.events.filter (fun e => e.isFixed)
    rw [hev]
    show (sch.events.filter (fun e => e.isFixed) ++ extra).filter
        (fun e => e.isFixed) = sch.events.filter (fun e => e.isFixed)
    rw [List.filter_append, List.filter_filter]
    have hextra : extra.filter (fun e => e.isFixed) = [] :=
      List.filter_eq_nil_iff.mpr (by
        intro e he
        rw [hfix e he]
        exact Bool.false_ne_true)
    rw [hextra, List.append_nil]
    congr 1
    funext e
    exact Bool.and_self e.isFixed
  exact autoScheduleTasks_congr now (autoScheduleTasks now sch) sch hT hE rfl

/-! ### Lemmas about the per-day sweep -/

theorem sweep_pointer_le (evts : List Event) :
    ∀ p : Int, p ≤ (sweep evts p).2 := by
  induction evts with
  | nil => intro p; simp [sweep]
  | cons e rest ih =>
    intro p
    simp only [sweep]
    exact le_trans (le_max_left p e.stop) (ih (max p e.stop))

theorem sweep_gap_start (evts : List Event) :
    ∀ p : Int, ∀ g ∈ (sweep evts p).1, p ≤ g.start ∧ g.start < g.stop := by
  induction evts with
  | nil => intro p g hg; simp [sweep] at hg
  | cons e rest ih =>
    intro p g hg
    simp only [sweep] at hg
    rcases List.mem_append.mp hg with h | h
    · by_cases hpe : p < e.start
      · rw [if_pos hpe] at h
        simp only [List.mem_singleton] at h
        subst h
        exact ⟨le_refl p, hpe⟩
      · rw [if_neg hpe] at h
        cases h
    · have := ih (max p e.stop) g h
      exact ⟨le_trans (le_max_left p e.stop) this.1, this.2⟩

theorem sweep_gap_stop_le (evts : List Event) :
    ∀ (p B : Int), (∀ e ∈ evts, e.start ≤ B) →
      ∀ g ∈ (sweep evts p).1, g.stop ≤ B := by
  induction evts with
  | nil => intro p B _ g hg; simp [sweep] at hg
  | cons e rest ih =>
    intro p B hB g hg
    simp only [sweep] at hg
    rcases List.mem_append.mp hg with h | h
    · by_cases hpe : p < e.start
      · rw [if_pos hpe] at h
        simp only [List.mem_singleton] at h
        subst h
        exact hB e (List.mem_cons_self e rest)
      · rw [if_neg hpe] at h
        cases h
    · exact ih (max p e.stop) B (fun e' he' => hB e' (List.mem_cons_of_mem e he'))
        g h

theorem sweep_pointer_le_of (evts : List Event) :
    ∀ (p B : Int), p ≤ B → (∀ e ∈ evts, e.stop ≤ B) →
      (sweep evts p).2 ≤ B := by
  induction evts with
  | nil => intro p B h _; simpa [sweep] using h
  | cons e rest ih =>
    intro p B hp hB
    simp only [sweep]
    exact ih (max p e.stop) B
      (max_le hp (hB e (List.mem_cons_self e rest)))
      (fun e' he' => hB e' (List.mem_cons_of_mem e he'))

theorem sweep_stop_le_pointer (evts : List Event) :
    ∀ p : Int, ∀ e ∈ evts, e.stop ≤ (sweep evts p).2 := by
  induction evts with
  | nil => intro p e he; cases he
  | cons e rest ih =>
    intro p e' he'
    simp only [sweep]
    rcases List.mem_cons.mp he' with rfl | hmem
    · exact le_trans (le_max_right p e'.stop) (sweep_pointer_le rest _)
    · exact ih (max p e.stop) e' hmem

theorem sweep_covers (evts : List Event) :
    ∀ (p x : Int), p ≤ x → x < (sweep evts p).2 →
      (∃ g ∈ (sweep evts p).1, g.start ≤ x ∧ x < g.stop) ∨
        ∃ e ∈ evts, e.start ≤ x ∧ x < e.stop := by
  induction evts with
  | nil =>
    intro p x hpx hx
    simp only [sweep] at hx
    omega
  | cons e rest ih =>
    intro p x hpx hx
    simp only [sweep] at hx ⊢
    by_cases hxe : x < e.start
    · left
      refine ⟨⟨p, e.start⟩, ?_, hpx, hxe⟩
      apply List.mem_append_left
      rw [if_pos (lt_of_le_of_lt hpx hxe)]
      exact List.mem_singleton.mpr rfl
    · by_cases hxs : x < e.stop
      · right
        exact ⟨e, List.mem_cons_self e rest, le_of_not_lt hxe, hxs⟩
      · have hge : max p e.stop ≤ x := max_le hpx (le_of_not_lt hxs)
        rcases ih (max p e.stop) x hge hx with ⟨g, hg, hgx⟩ | ⟨e', he', hex⟩
        · exact Or.inl ⟨g, List.mem_append_right _ hg, hgx⟩
        · exact Or.inr ⟨e', List.mem_cons_of_mem e he', hex⟩

theorem sweep_gaps_pairwise (evts : List Event) :
    ∀ p : Int, evts.Pairwise eventLE → (∀ e ∈ evts, e.start ≤ e.stop) →
      (sweep evts p).1.Pairwise (fun a b => a.stop ≤ b.start) ∧
        ∀ g ∈ (sweep evts p).1, g.stop ≤ (sweep evts p).2 := by
  induction evts with
  | nil => intro p _ _; constructor <;> simp [sweep]
  | cons e rest ih =>
    intro p hsorted hval
    obtain ⟨ihp, ihs⟩ := ih (max p e.stop) hsorted.of_cons
      (fun e' he' => hval e' (List.mem_cons_of_mem e he'))
    have hhead : ∀ g ∈ (if p < e.start then [Slot.mk p e.start] else []),
        g.stop = e.start := by
      intro g hg
      by_cases hpe : p < e.start
      · rw [if_pos hpe] at hg
        simp only [List.mem_singleton] at hg
        subst hg
        rfl
      · rw [if_neg hpe] at hg
        cases hg
    constructor
    · simp only [sweep]
      apply List.pairwise_append.mpr
      refine ⟨?_, ihp, ?_⟩
      · by_cases hpe : p < e.start
        · rw [if_pos hpe]; simp
        · rw [if_neg hpe]; simp
      · intro g1 hg1 g2 hg2
        rw [hhead g1 hg1]
        have h2 := sweep_gap_start rest (max p e.stop) g2 hg2
        have : e.stop ≤ max p e.stop := le_max_right p e.stop
        have hv := hval e (List.mem_cons_self e rest)
        omega
    · intro g hg
      simp only [sweep] at hg ⊢
      rcases List.mem_append.mp hg with h | h
      · rw [hhead g h]
        have hv := hval e (List.mem_cons_self e rest)
        have h1 : e.stop ≤ max p e.stop := le_max_right p e.stop
        have h2 := sweep_pointer_le rest (max p e.stop)
        omega
      · exact ihs g h

theorem sweep_gaps_events_disjoint (evts : List Event) :
    ∀ p : Int, evts.Pairwise eventLE →
      ∀ g ∈ (sweep evts p).1, ∀ e ∈ evts,
        g.stop ≤ e.start ∨ e.stop ≤ g.start := by
  induction evts with
  | nil => intro p _ g hg; simp [sweep] at hg
  | cons e rest ih =>
    intro p hsorted g hg e' he'
    simp only [sweep] at hg
    rcases List.mem_append.mp hg with h | h
    · by_cases hpe : p < e.start
      · rw [if_pos hpe] at h
        simp only [List.mem_singleton] at h
        subst h
        rcases List.mem_cons.mp he' with rfl | hmem
        · exact Or.inl (le_refl _)
        · exact Or.inl (List.rel_of_pairwise_cons hsorted hmem)
      · rw [if_neg hpe] at h
        cases h
    · rcases List.mem_cons.mp he' with rfl | hmem
      · right
        have := (sweep_gap_start rest (max p e'.stop) g h).1
        have h2 : e'.stop ≤ max p e'.stop := le_max_right p e'.stop
        omega
      · exact ih (max p e.stop) hsorted.of_cons g h e' hmem

/-! ### Lemmas about the day loop -/

theorem mem_dayList (a b d : Int) :
    d ∈ dayList a b ↔ a / 1440 ≤ d ∧ d * 1440 < b := by
  simp only [dayList, List.mem_map, List.mem_range]
  have hpos : (0 : Int) < 1440 := by norm_num
  constructor
  · rintro ⟨i, hi, rfl⟩
    have hi' : (i : Int) < (b - 1) / 1440 + 1 - a / 1440 :=
      Int.lt_toNat.mp hi
    have hle : a / 1440 + (i : Int) ≤ (b - 1) / 1440 := by omega
    have hmul := (Int.le_ediv_iff_mul_le hpos).mp (le_refl ((b - 1) / 1440))
    omega
  · rintro ⟨h1, h2⟩
    have hd : d ≤ (b - 1) / 1440 :=
      (Int.le_ediv_iff_mul_le hpos).mpr (by omega)
    refine ⟨(d - a / 1440).toNat, ?_, ?_⟩
    · apply Int.lt_toNat.mpr
      rw [Int.toNat_of_nonneg (by omega)]
      omega
    · rw [Int.toNat_of_nonneg (by omega)]
      omega

theorem dayList_pairwise (a b : Int) :
    (dayList a b).Pairwise (fun d1 d2 => d1 < d2) := by
  simp only [dayList]
  apply List.pairwise_map.mpr
  apply List.Pairwise.imp ?_ (List.pairwise_lt_range _)
  intro m n h
  omega

theorem dayList_day (st : Settings) (d : Int) (h0 : 0 ≤ st.workStart)
    (h1 : st.workStart < st.workEnd) (h2 : st.workEnd ≤ 24) :
    dayList (dayStartT st d) (dayEndT st d) = [d] := by
  have e1 : (d * 1440 + st.workStart * 60) / 1440 = d := by
    rw [add_comm (d * 1440) (st.workStart * 60), mul_comm d 1440,
      Int.add_mul_ediv_left (st.workStart * 60) d (by norm_num)]
    rw [Int.ediv_eq_zero_of_lt (by omega) (by omega)]
    omega
  have e2 : (d * 1440 + st.workEnd * 60 - 1) / 1440 = d := by
    have harr : d * 1440 + st.workEnd * 60 - 1 =
        (st.workEnd * 60 - 1) + 1440 * d := by ring
    rw [harr, Int.add_mul_ediv_left (st.workEnd * 60 - 1) d (by norm_num)]
    rw [Int.ediv_eq_zero_of_lt (by omega) (by omega)]
    omega
  show (List.range ((dayEndT st d - 1) / 1440 + 1 -
      dayStartT st d / 1440).toNat).map
      (fun (i : Nat) => dayStartT st d / 1440 + (i : Int)) = [d]
  unfold dayStartT dayEndT
  rw [e1, e2]
  have e3 : d + 1 - d = (1 : Int) := by ring
  rw [e3]
  show [d + ((0 : Nat) : Int)] = [d]
  norm_num

theorem daySlotsFor_mem_bounds (st : Settings) (fe : List Event) (sd d : Int) :
    ∀ g ∈ daySlotsFor st fe sd d,
      dayOfWeek d ∈ st.workDays ∧
      max sd (dayStartT st d) ≤ g.start ∧ g.stop ≤ dayEndT st d ∧
      g.start < g.stop := by
  intro g hg
  unfold daySlotsFor at hg
  by_cases hwd : dayOfWeek d ∈ st.workDays
  swap
  · rw [if_neg hwd] at hg; cases hg
  rw [if_pos hwd] at hg
  simp only at hg
  by_cases heff : max sd (dayStartT st d) < dayEndT st d
  swap
  · rw [if_neg heff] at hg; cases hg
  rw [if_pos heff] at hg
  have hstartle : ∀ e ∈ List.insertionSort eventLE
      (fe.filter (fun e => decide (e.start < dayEndT st d) &&
        decide (e.stop > max sd (dayStartT st d)))), e.start ≤ dayEndT st d := by
    intro e he
    have hmem := (List.mem_insertionSort eventLE).mp he
    have := (List.mem_filter.mp hmem).2
    simp only [Bool.and_eq_true, decide_eq_true_eq] at this
    omega
  rcases List.mem_append.mp hg with h | h
  · have h1 := sweep_gap_start _ (max sd (dayStartT st d)) g h
    have h2 := sweep_gap_stop_le _ (max sd (dayStartT st d)) (dayEndT st d)
      hstartle g h
    exact ⟨hwd, h1.1, h2, h1.2⟩
  · by_cases hfin : (sweep (List.insertionSort eventLE
        (fe.filter (fun e => decide (e.start < dayEndT st d) &&
          decide (e.stop > max sd (dayStartT st d)))))
        (max sd (dayStartT st d))).2 < dayEndT st d
    · rw [if_pos hfin] at h
      simp only [List.mem_singleton] at h
      subst h
      exact ⟨hwd, sweep_pointer_le _ _, le_refl _, hfin⟩
    · rw [if_neg hfin] at h
      cases h

theorem daySlotsFor_events_disjoint (st : Settings) (fe : List Event)
    (sd d : Int) :
    ∀ g ∈ daySlotsFor st fe sd d, ∀ e ∈ fe,
      g.stop ≤ e.start ∨ e.stop ≤ g.start := by
  intro g hg e he
  have hbounds := daySlotsFor_mem_bounds st fe sd d g hg
  unfold daySlotsFor at hg
  by_cases hwd : dayOfWeek d ∈ st.workDays
  swap
  · rw [if_neg hwd] at hg; cases hg
  rw [if_pos hwd] at hg
  simp only at hg
  by_cases heff : max sd (dayStartT st d) < dayEndT st d
  swap
  · rw [if_neg heff] at hg; cases hg
  rw [if_pos heff] at hg
  by_cases hsel : e.start < dayEndT st d ∧ e.stop > max sd (dayStartT st d)
  · -- the event was selected for this day's sweep
    have hemem : e ∈ List.insertionSort eventLE
        (fe.filter (fun e => decide (e.start < dayEndT st d) &&
          decide (e.stop > max sd (dayStartT st d)))) := by
      apply (List.mem_insertionSort eventLE).mpr
      apply List.mem_filter.mpr
      refine ⟨he, ?_⟩
      simp only [Bool.and_eq_true, decide_eq_true_eq]
      exact hsel
    have hsorted : (List.insertionSort eventLE
        (fe.filter (fun e => decide (e.start < dayEndT st d) &&
          decide (e.stop > max sd (dayStartT st d))))).Pairwise eventLE :=
      List.sorted_insertionSort eventLE _
    rcases List.mem_append.mp hg with h | h
    · exact sweep_gaps_events_disjoint _ (max sd (dayStartT st d)) hsorted
        g h e hemem
    · by_cases hfin : (sweep (List.insertionSort eventLE
          (fe.filter (fun e => decide (e.start < dayEndT st d) &&
            decide (e.stop > max sd (dayStartT st d)))))
          (max sd (dayStartT st d))).2 < dayEndT st d
      · rw [if_pos hfin] at h
        simp only [List.mem_singleton] at h
        subst h
        exact Or.inr (sweep_stop_le_pointer _ (max sd (dayStartT st d)) e hemem)
      · rw [if_neg hfin] at h
        cases h
  · -- the event does not overlap this day's window
    have hout : dayEndT st d ≤ e.start ∨ e.stop ≤ max sd (dayStartT st d) := by
      omega
    rcases hout with h | h
    · exact Or.inl (le_trans hbounds.2.2.1 h)
    · exact Or.inr (le_trans h hbounds.2.1)

/-! ### C3: gaps plus fixed intervals tile a working day -/

/-- C3: for pairwise non-overlapping fixed intervals lying fully inside one
working day's working hours, every minute of `[dayStart, dayEnd)` is covered
either by a returned gap, by a fixed interval, or by a raw gap that the
short-gap filter discarded — and conversely all of those lie inside
`[dayStart, dayEnd)`. -/
theorem c3_single_day_coverage (st : Settings) (d : Int) (evts : List Event)
    (hwd : dayOfWeek d ∈ st.workDays) (h0 : 0 ≤ st.workStart)
    (h1 : st.workStart < st.workEnd) (h2 : st.workEnd ≤ 24)
    (hfix : ∀ e ∈ evts, e.isFixed = true)
    (hval : ∀ e ∈ evts, e.start < e.stop)
    (hin : ∀ e ∈ evts, dayStartT st d ≤ e.start ∧ e.stop ≤ dayEndT st d)
    (_hdisj : evts.Pairwise
      (fun e1 e2 => ¬(e1.start < e2.stop ∧ e2.start < e1.stop))) :
    ∀ x : Int, (dayStartT st d ≤ x ∧ x < dayEndT st d) ↔
      ((∃ g ∈ getAvailableSlots st evts (dayStartT st d) (dayEndT st d),
          g.start ≤ x ∧ x < g.stop) ∨
        (∃ e ∈ evts, e.start ≤ x ∧ x < e.stop) ∨
        (∃ g ∈ rawSlots st evts (dayStartT st d) (dayEndT st d),
          slotDuration g < st.minBreakBetweenTasks + 15 ∧
            g.start ≤ x ∧ x < g.stop)) := by
  have hAB : dayStartT st d < dayEndT st d := by
    unfold dayStartT dayEndT
    omega
  have hfixeq : evts.filter (fun e => e.isFixed) = evts :=
    List.filter_eq_self.mpr (fun e he => by rw [hfix e he])
  have hfiltereq : evts.filter (fun e =>
      decide (e.start < dayEndT st d) &&
        decide (e.stop > dayStartT st d)) = evts := by
    apply List.filter_eq_self.mpr
    intro e he
    have hv := hval e he
    have hi := hin e he
    simp only [Bool.and_eq_true, decide_eq_true_eq]
    omega
  have hraw : rawSlots st evts (dayStartT st d) (dayEndT st d) =
      (sweep (List.insertionSort eventLE evts) (dayStartT st d)).1 ++
        (if (sweep (List.insertionSort eventLE evts) (dayStartT st d)).2 <
            dayEndT st d then
          [Slot.mk (sweep (List.insertionSort eventLE evts)
            (dayStartT st d)).2 (dayEndT st d)]
        else []) := by
    unfold rawSlots
    rw [hfixeq, dayList_day st d h0 h1 h2, List.flatMap_cons, List.flatMap_nil,
      List.append_nil]
    unfold daySlotsFor
    rw [if_pos hwd]
    simp only [max_self]
    rw [if_pos hAB, hfiltereq]
  have hstople : ∀ e ∈ List.insertionSort eventLE evts,
      e.stop ≤ dayEndT st d := by
    intro e he
    exact (hin e ((List.mem_insertionSort eventLE).mp he)).2
  have hstartle : ∀ e ∈ List.insertionSort eventLE evts,
      e.start ≤ dayEndT st d := by
    intro e he
    have h3 := hval e ((List.mem_insertionSort eventLE).mp he)
    have h4 := hstople e he
    omega
  have hrawbounds : ∀ g ∈ rawSlots st evts (dayStartT st d) (dayEndT st d),
      dayStartT st d ≤ g.start ∧ g.stop ≤ dayEndT st d := by
    intro g hg
    rw [hraw] at hg
    rcases List.mem_append.mp hg with h | h
    · exact ⟨(sweep_gap_start _ _ g h).1, sweep_gap_stop_le _ _ _ hstartle g h⟩
    · by_cases hfin : (sweep (List.insertionSort eventLE evts)
          (dayStartT st d)).2 < dayEndT st d
      · rw [if_pos hfin] at h
        simp only [List.mem_singleton] at h
        subst h
        exact ⟨sweep_pointer_le _ _, le_refl _⟩
      · rw [if_neg hfin] at h
        cases h
  have hmemA : ∀ g, g ∈ rawSlots st evts (dayStartT st d) (dayEndT st d) →
      st.minBreakBetweenTasks + 15 ≤ slotDuration g →
      g ∈ getAvailableSlots st evts (dayStartT st d) (dayEndT st d) := by
    intro g hr hb
    exact List.mem_filter.mpr ⟨hr, decide_eq_true hb⟩
  intro x
  constructor
  · rintro ⟨hx1, hx2⟩
    rcases lt_or_ge x (sweep (List.insertionSort eventLE evts)
        (dayStartT st d)).2 with hlt | hge
    · rcases sweep_covers _ (dayStartT st d) x hx1 hlt with
        ⟨g, hg, hgx⟩ | ⟨e, he, hex⟩
      · have hgr : g ∈ rawSlots st evts (dayStartT st d) (dayEndT st d) := by
          rw [hraw]
          exact List.mem_append_left _ hg
        by_cases hbig : st.minBreakBetweenTasks + 15 ≤ slotDuration g
        · exact Or.inl ⟨g, hmemA g hgr hbig, hgx⟩
        · exact Or.inr (Or.inr ⟨g, hgr, by omega, hgx⟩)
      · exact Or.inr (Or.inl ⟨e, (List.mem_insertionSort eventLE).mp he, hex⟩)
    · have hfin : (sweep (List.insertionSort eventLE evts)
          (dayStartT st d)).2 < dayEndT st d := lt_of_le_of_lt hge hx2
      have hg0 : Slot.mk (sweep (List.insertionSort eventLE evts)
          (dayStartT st d)).2 (dayEndT st d) ∈
          rawSlots st evts (dayStartT st d) (dayEndT st d) := by
        rw [hraw]
        apply List.mem_append_right
        rw [if_pos hfin]
        exact List.mem_singleton.mpr rfl
      by_cases hbig : st.minBreakBetweenTasks + 15 ≤
          slotDuration (Slot.mk (sweep (List.insertionSort eventLE evts)
            (dayStartT st d)).2 (dayEndT st d))
      · exact Or.inl ⟨_, hmemA _ hg0 hbig, hge, hx2⟩
      · exact Or.inr (Or.inr ⟨_, hg0, by omega, hge, hx2⟩)
  · rintro (⟨g, hg, hgx⟩ | ⟨e, he, hex⟩ | ⟨g, hg, _, hgx⟩)
    · have hr := hrawbounds g (List.mem_filter.mp hg).1
      omega
    · have h3 := hin e he
      omega
    · have hr := hrawbounds g hg
      omega

/-- Events for the C3 witness: two disjoint meetings inside Sunday's working
hours. -/
def w3events : List Event :=
  [⟨"m1", 600, 660, true, false, false, none⟩,
   ⟨"m2", 720, 780, true, false, false, none⟩]

/-- Witness for C3 at a concrete input (day 0, working hours 09:00-17:00). -/
theorem c3_single_day_coverage_witness :
    (dayOfWeek 0 ∈ w5st.workDays ∧ (0 : Int) ≤ w5st.workStart ∧
      w5st.workStart < w5st.workEnd ∧ w5st.workEnd ≤ 24 ∧
      (∀ e ∈ w3events, e.isFixed = true) ∧
      (∀ e ∈ w3events, e.start < e.stop) ∧
      (∀ e ∈ w3events, dayStartT w5st 0 ≤ e.start ∧ e.stop ≤ dayEndT w5st 0) ∧
      w3events.Pairwise
        (fun e1 e2 => ¬(e1.start < e2.stop ∧ e2.start < e1.stop))) ∧
    ((dayStartT w5st 0 ≤ 650 ∧ (650 : Int) < dayEndT w5st 0) ↔
      ((∃ g ∈ getAvailableSlots w5st w3events (dayStartT w5st 0)
          (dayEndT w5st 0), g.start ≤ 650 ∧ (650 : Int) < g.stop) ∨
        (∃ e ∈ w3events, e.start ≤ 650 ∧ (650 : Int) < e.stop) ∨
        (∃ g ∈ rawSlots w5st w3events (dayStartT w5st 0) (dayEndT w5st 0),
          slotDuration g < w5st.minBreakBetweenTasks + 15 ∧
            g.start ≤ 650 ∧ (650 : Int) < g.stop))) :=
  ⟨⟨by decide, by decide, by decide, by decide, by decide, by decide,
     by decide, by decide⟩,
   c3_single_day_coverage w5st 0 w3events (by decide) (by decide) (by decide)
     (by decide) (by decide) (by decide) (by decide) (by decide) 650⟩

/-! ### C4: the gap list is chronological and non-overlapping -/

theorem daySlotsFor_pairwise (st : Settings) (fe : List Event) (sd d : Int)
    (hval : ∀ e ∈ fe, e.start ≤ e.stop) :
    (daySlotsFor st fe sd d).Pairwise (fun g1 g2 => g1.stop ≤ g2.start) := by
  unfold daySlotsFor
  by_cases hwd : dayOfWeek d ∈ st.workDays
  swap
  · rw [if_neg hwd]
    exact List.Pairwise.nil
  rw [if_pos hwd]
  simp only
  by_cases heff : max sd (dayStartT st d) < dayEndT st d
  swap
  · rw [if_neg heff]
    exact List.Pairwise.nil
  rw [if_pos heff]
  have hsorted : (List.insertionSort eventLE
      (fe.filter (fun e => decide (e.start < dayEndT st d) &&
        decide (e.stop > max sd (dayStartT st d))))).Pairwise eventLE :=
    List.sorted_insertionSort eventLE _
  have hv : ∀ e ∈ List.insertionSort eventLE
      (fe.filter (fun e => decide (e.start < dayEndT st d) &&
        decide (e.stop > max sd (dayStartT st d)))), e.start ≤ e.stop := by
    intro e he
    exact hval e (List.mem_filter.mp
      ((List.mem_insertionSort eventLE).mp he)).1
  obtain ⟨hpair, hstop⟩ := sweep_gaps_pairwise _ (max sd (dayStartT st d))
    hsorted hv
  apply List.pairwise_append.mpr
  refine ⟨hpair, ?_, ?_⟩
  · by_cases hfin : (sweep (List.insertionSort eventLE
        (fe.filter (fun e => decide (e.start < dayEndT st d) &&
          decide (e.stop > max sd (dayStartT st d)))))
        (max sd (dayStartT st d))).2 < dayEndT st d
    · rw [if_pos hfin]
      simp
    · rw [if_neg hfin]
      exact List.Pairwise.nil
  · intro g1 hg1 g2 hg2
    by_cases hfin : (sweep (List.insertionSort eventLE
        (fe.filter (fun e => decide (e.start < dayEndT st d) &&
          decide (e.stop > max sd (dayStartT st d)))))
        (max sd (dayStartT st d))).2 < dayEndT st d
    · rw [if_pos hfin] at hg2
      simp only [List.mem_singleton] at hg2
      subst hg2
      exact hstop g1 hg1
    · rw [if_neg hfin] at hg2
      cases hg2

theorem dayEndT_le_dayStartT (st : Settings) (d1 d2 : Int)
    (h0 : 0 ≤ st.workStart) (h2 : st.workEnd ≤ 24) (h : d1 < d2) :
    dayEndT st d1 ≤ dayStartT st d2 := by
  unfold dayEndT dayStartT
  omega

theorem rawSlots_pairwise (st : Settings) (events : List Event) (a b : Int)
    (h0 : 0 ≤ st.workStart) (h2 : st.workEnd ≤ 24)
    (hval : ∀ e ∈ events, e.isFixed = true → e.start ≤ e.stop) :
    (rawSlots st events a b).Pairwise (fun g1 g2 => g1.stop ≤ g2.start) := by
  have hfe : ∀ e ∈ events.filter (fun e => e.isFixed),
      e.start ≤ e.stop := by
    intro e he
    exact hval e (List.mem_filter.mp he).1 (List.mem_filter.mp he).2
  unfold rawSlots
  apply List.pairwise_flatMap.mpr
  constructor
  · intro d _
    exact daySlotsFor_pairwise st _ a d hfe
  · apply List.Pairwise.imp ?_ (dayList_pairwise a b)
    intro d1 d2 hlt x hx y hy
    have hb1 := daySlotsFor_mem_bounds st _ a d1 x hx
    have hb2 := daySlotsFor_mem_bounds st _ a d2 y hy
    have hcross := dayEndT_le_dayStartT st d1 d2 h0 h2 hlt
    have hy2 : dayStartT st d2 ≤ y.start :=
      le_trans (le_max_right a (dayStartT st d2)) hb2.2.1
    omega

theorem rawSlots_mem_pos (st : Settings) (events : List Event) (a b : Int) :
    ∀ g ∈ rawSlots st events a b, g.start < g.stop := by
  intro g hg
  unfold rawSlots at hg
  rcases List.mem_flatMap.mp hg with ⟨d, _, hgd⟩
  exact (daySlotsFor_mem_bounds st _ a d g hgd).2.2.2

/-- C4: for every input — overlapping or duplicate fixed intervals included —
the gap list returned by `getAvailableSlots` is chronologically ordered and
pairwise non-overlapping (each gap ends no later than the next begins), and
every gap is non-empty. -/
theorem c4_gaps_chronological (st : Settings) (events : List Event)
    (a b : Int) (h0 : 0 ≤ st.workStart) (h2 : st.workEnd ≤ 24)
    (hval : ∀ e ∈ events, e.isFixed = true → e.start ≤ e.stop) :
    (getAvailableSlots st events a b).Pairwise
      (fun g1 g2 => g1.stop ≤ g2.start) ∧
    ∀ g ∈ getAvailableSlots st events a b, g.start < g.stop := by
  constructor
  · exact List.Pairwise.sublist (List.filter_sublist _)
      (rawSlots_pairwise st events a b h0 h2 hval)
  · intro g hg
    exact rawSlots_mem_pos st events a b g (List.mem_filter.mp hg).1

/-- Events for the C4 witness: duplicate and overlapping fixed intervals. -/
def w4events : List Event :=
  [⟨"dup", 600, 700, true, false, false, none⟩,
   ⟨"dup", 600, 700, true, false, false, none⟩,
   ⟨"wide", 560, 820, true, false, false, none⟩]

/-- Witness for C4 at a concrete input with overlapping duplicates. -/
theorem c4_gaps_chronological_witness :
    ((0 : Int) ≤ w5st.workStart ∧ w5st.workEnd ≤ 24 ∧
      (∀ e ∈ w4events, e.isFixed = true → e.start ≤ e.stop)) ∧
    ((getAvailableSlots w5st w4events 0 2880).Pairwise
      (fun g1 g2 => g1.stop ≤ g2.start) ∧
    ∀ g ∈ getAvailableSlots w5st w4events 0 2880, g.start < g.stop) :=
  ⟨⟨by decide, by decide, by decide⟩,
   c4_gaps_chronological w5st w4events 0 2880 (by decide) (by decide)
     (by decide)⟩

/-! ### Invariants of the placement pass (towards C10) -/

theorem placeCursorEnd_bounds (t : Task) (c0 : Int) (hd : 0 ≤ t.duration)
    (hTo : 0 ≤ t.commuteToDuration) (hFrom : 0 ≤ t.commuteFromDuration) :
    c0 ≤ placeCursorEnd t c0 ∧ placeCursorEnd t c0 ≤ c0 + totalDuration t := by
  unfold placeCursorEnd placeTaskEnd placeStart totalDuration
  by_cases h1 : 0 < t.commuteToDuration <;>
    by_cases h2 : 0 < t.commuteFromDuration <;>
      simp only [if_pos, if_neg, h1, h2, if_true, if_false] <;> omega

theorem placedEvents_piece_bounds (t : Task) (c0 : Int) (hd : 0 ≤ t.duration)
    (hTo : 0 ≤ t.commuteToDuration) (hFrom : 0 ≤ t.commuteFromDuration) :
    ∀ e ∈ placedEvents t c0,
      c0 ≤ e.start ∧ e.start ≤ e.stop ∧ e.stop ≤ placeCursorEnd t c0 := by
  intro e he
  by_cases h1 : 0 < t.commuteToDuration
  · by_cases h2 : 0 < t.commuteFromDuration
    · simp only [placedEvents, if_pos h1, if_pos h2, List.mem_append,
        List.mem_singleton] at he
      rcases he with (rfl | rfl) | rfl <;>
        simp only [placeCursorEnd, placeTaskEnd, placeStart, if_pos h1,
          if_pos h2] <;> omega
    · simp only [placedEvents, if_pos h1, if_neg h2, List.append_nil,
        List.mem_append, List.mem_singleton] at he
      rcases he with rfl | rfl <;>
        simp only [placeCursorEnd, placeTaskEnd, placeStart, if_pos h1,
          if_neg h2] <;> omega
  · by_cases h2 : 0 < t.commuteFromDuration
    · simp only [placedEvents, if_neg h1, if_pos h2, List.nil_append,
        List.mem_append, List.mem_singleton] at he
      rcases he with rfl | rfl <;>
        simp only [placeCursorEnd, placeTaskEnd, placeStart, if_neg h1,
          if_pos h2] <;> omega
    · simp only [placedEvents, if_neg h1, if_neg h2, List.nil_append,
        List.append_nil, List.mem_singleton] at he
      subst he
      simp only [placeCursorEnd, placeTaskEnd, placeStart, if_neg h1,
        if_neg h2]
      omega

theorem placedEvents_chain (t : Task) (c0 : Int) (hd : 0 ≤ t.duration)
    (hTo : 0 ≤ t.commuteToDuration) (hFrom : 0 ≤ t.commuteFromDuration) :
    (placedEvents t c0).Pairwise (fun e1 e2 => e1.stop ≤ e2.start) := by
  have hpe : placeTaskEnd t c0 = placeStart t c0 + t.duration := rfl
  by_cases h1 : 0 < t.commuteToDuration
  · have hps : placeStart t c0 = c0 + t.commuteToDuration := by
      unfold placeStart
      rw [if_pos h1]
    by_cases h2 : 0 < t.commuteFromDuration
    · have hplist : placedEvents t c0 =
          [⟨"Commute to " ++ t.name, c0, c0 + t.commuteToDuration,
            false, false, true, none⟩,
           ⟨t.name, placeStart t c0, placeTaskEnd t c0, false, true, false,
            some t.id⟩,
           ⟨"Commute from " ++ t.name, placeTaskEnd t c0, placeCursorEnd t c0,
            false, false, true, none⟩] := by
        unfold placedEvents
        rw [if_pos h1, if_pos h2]
        rfl
      rw [hplist]
      refine List.Pairwise.cons ?_ (List.Pairwise.cons ?_
        (List.pairwise_singleton _ _))
      · intro e he
        simp only [List.mem_cons, List.not_mem_nil, or_false] at he
        rcases he with rfl | rfl <;> dsimp only <;> omega
      · intro e he
        simp only [List.mem_cons, List.not_mem_nil, or_false] at he
        subst he
        dsimp only
        omega
    · have hplist : placedEvents t c0 =
          [⟨"Commute to " ++ t.name, c0, c0 + t.commuteToDuration,
            false, false, true, none⟩,
           ⟨t.name, placeStart t c0, placeTaskEnd t c0, false, true, false,
            some t.id⟩] := by
        unfold placedEvents
        rw [if_pos h1, if_neg h2]
        rfl
      rw [hplist]
      refine List.Pairwise.cons ?_ (List.pairwise_singleton _ _)
      intro e he
      simp only [List.mem_cons, List.not_mem_nil, or_false] at he
      subst he
      dsimp only
      omega
  · have hps : placeStart t c0 = c0 := by
      unfold placeStart
      rw [if_neg h1]
    by_cases h2 : 0 < t.commuteFromDuration
    · have hplist : placedEvents t c0 =
          [⟨t.name, placeStart t c0, placeTaskEnd t c0, false, true, false,
            some t.id⟩,
           ⟨"Commute from " ++ t.name, placeTaskEnd t c0, placeCursorEnd t c0,
            false, false, true, none⟩] := by
        unfold placedEvents
        rw [if_neg h1, if_pos h2]
        rfl
      rw [hplist]
      refine List.Pairwise.cons ?_ (List.pairwise_singleton _ _)
      intro e he
      simp only [List.mem_cons, List.not_mem_nil, or_false] at he
      subst he
      dsimp only
      omega
    · have hplist : placedEvents t c0 =
          [⟨t.name, placeStart t c0, placeTaskEnd t c0, false, true, false,
            some t.id⟩] := by
        unfold placedEvents
        rw [if_neg h1, if_neg h2]
        rfl
      rw [hplist]
      exact List.pairwise_singleton _ _

/-- The invariant maintained over the `taskQueue.forEach` loop: slots only
shrink inside their original extents, and the events placed so far
(`extra`) sit inside original slots, are mutually disjoint, and are disjoint
from every current slot. -/
def PassInv (orig : List Slot) (st : PassState) (extra : List Event) : Prop :=
  st.slots.length = orig.length ∧
  (∀ (j : Nat) (g h : Slot), st.slots[j]? = some g → orig[j]? = some h →
    g.stop = h.stop ∧ h.start ≤ g.start) ∧
  (∀ e ∈ extra, e.start ≤ e.stop ∧
    ∃ (j : Nat) (h : Slot), orig[j]? = some h ∧
      h.start ≤ e.start ∧ e.stop ≤ h.stop) ∧
  extra.Pairwise (fun e1 e2 => e1.stop ≤ e2.start ∨ e2.stop ≤ e1.start) ∧
  (∀ e ∈ extra, ∀ (j : Nat) (g : Slot), st.slots[j]? = some g →
    e.stop ≤ g.start ∨ g.stop ≤ e.start)

theorem stepTask_preserves_inv (β : Int) (hβ : 0 ≤ β) (orig : List Slot)
    (horig : orig.Pairwise (fun g1 g2 => g1.stop ≤ g2.start))
    (st : PassState) (extra : List Event) (p : Nat × Task)
    (hd : 0 ≤ p.2.duration) (hTo : 0 ≤ p.2.commuteToDuration)
    (hFrom : 0 ≤ p.2.commuteFromDuration)
    (hinv : PassInv orig st extra) :
    ∃ newev : List Event, (stepTask β st p).events = st.events ++ newev ∧
      PassInv orig (stepTask β st p) (extra ++ newev) := by
  obtain ⟨hlen, hsl, hex, hpw, hdisj⟩ := hinv
  rcases htry : tryPlace β p.2 st.slots with _ | r
  · refine ⟨[], ?_, ?_⟩
    · unfold stepTask
      rw [htry, List.append_nil]
    · unfold stepTask
      rw [htry, List.append_nil]
      exact ⟨hlen, hsl, hex, hpw, hdisj⟩
  · obtain ⟨j, hj, hstart, hfit, _, hset⟩ :=
      tryPlace_eq_some_spec β p.2 st.slots r.1 r.2 (by rw [htry])
    have hstep_ev : (stepTask β st p).events =
        st.events ++ placedEvents p.2 r.1 := by
      unfold stepTask
      rw [htry]
    have hstep_sl : (stepTask β st p).slots = st.slots.set j
        (Slot.mk (placeCursorEnd p.2 r.1 + β) (st.slots.get ⟨j, hj⟩).stop) := by
      unfold stepTask
      rw [htry]
      exact hset
    have hce := placeCursorEnd_bounds p.2 r.1 hd hTo hFrom
    have hpieces := placedEvents_piece_bounds p.2 r.1 hd hTo hFrom
    have hjorig : j < orig.length := by omega
    have holdj : st.slots[j]? = some (st.slots.get ⟨j, hj⟩) := by
      rw [List.getElem?_eq_getElem hj]
      rfl
    have horigj : orig[j]? = some (orig.get ⟨j, hjorig⟩) := by
      rw [List.getElem?_eq_getElem hjorig]
      rfl
    have hsjo := hsl j (st.slots.get ⟨j, hj⟩) (orig.get ⟨j, hjorig⟩)
      holdj horigj
    have hc0ge : (orig.get ⟨j, hjorig⟩).start ≤ r.1 := by
      rw [hstart]
      exact hsjo.2
    have hfit' : r.1 + totalDuration p.2 ≤ (orig.get ⟨j, hjorig⟩).stop := by
      have h5 : totalDuration p.2 ≤ slotDuration (st.slots.get ⟨j, hj⟩) := hfit
      unfold slotDuration at h5
      omega
    have hpieceorig : ∀ e ∈ placedEvents p.2 r.1,
        (orig.get ⟨j, hjorig⟩).start ≤ e.start ∧
          e.stop ≤ (orig.get ⟨j, hjorig⟩).stop ∧ e.start ≤ e.stop := by
      intro e he
      have hb := hpieces e he
      refine ⟨le_trans hc0ge hb.1, ?_, hb.2.1⟩
      have h6 := hb.2.2
      omega
    -- orig slots are pairwise ordered, getElem? version
    have horig2 : ∀ (i1 i2 : Nat) (g1 g2 : Slot), i1 < i2 →
        orig[i1]? = some g1 → orig[i2]? = some g2 → g1.stop ≤ g2.start := by
      intro i1 i2 g1 g2 hlt he1 he2
      obtain ⟨hb1, he1'⟩ := List.getElem?_eq_some.mp he1
      obtain ⟨hb2, he2'⟩ := List.getElem?_eq_some.mp he2
      have := List.pairwise_iff_get.mp horig ⟨i1, hb1⟩ ⟨i2, hb2⟩ hlt
      simpa [List.get_eq_getElem, he1', he2'] using this
    refine ⟨placedEvents p.2 r.1, hstep_ev, ?_, ?_, ?_, ?_, ?_⟩
    · rw [hstep_sl, List.length_set]
      exact hlen
    · intro i g h hg hh
      rw [hstep_sl] at hg
      by_cases hij : i = j
      · subst hij
        rw [List.getElem?_set_self (by omega)] at hg
        have hg' := Option.some.inj hg
        have hh' : h = orig.get ⟨i, hjorig⟩ := by
          rw [horigj] at hh
          exact (Option.some.inj hh).symm
        subst hg'
        subst hh'
        constructor
        · exact hsjo.1
        · have h7 := hce.1
          have h8 := hsjo.2
          rw [hstart] at h7
          dsimp only
          omega
      · rw [List.getElem?_set_ne (fun hcc => hij hcc.symm)] at hg
        exact hsl i g h hg hh
    · intro e he
      rcases List.mem_append.mp he with h | h
      · exact hex e h
      · have h9 := hpieceorig e h
        exact ⟨h9.2.2, j, orig.get ⟨j, hjorig⟩, horigj, h9.1, h9.2.1⟩
    · apply List.pairwise_append.mpr
      refine ⟨hpw, ?_, ?_⟩
      · apply List.Pairwise.imp ?_ (placedEvents_chain p.2 r.1 hd hTo hFrom)
        intro e1 e2 h
        exact Or.inl h
      · intro e1 h1 e2 h2
        have hold := hdisj e1 h1 j (st.slots.get ⟨j, hj⟩) holdj
        have hb2 := hpieces e2 h2
        rcases hold with h | h
        · left
          rw [hstart] at hb2
          omega
        · right
          have h10 := (hpieceorig e2 h2).2.1
          rw [hsjo.1] at h
          omega
    · intro e he i g hg
      rw [hstep_sl] at hg
      rcases List.mem_append.mp he with h | h
      · -- previously placed events against the updated slot list
        by_cases hij : i = j
        · subst hij
          rw [List.getElem?_set_self (by omega)] at hg
          have hg' := Option.some.inj hg
          subst hg'
          have hold := hdisj e h i (st.slots.get ⟨i, hj⟩) holdj
          rcases hold with hcase | hcase
          · left
            have h11 := hce.1
            rw [hstart] at h11
            dsimp only
            omega
          · right
            exact hcase
        · rw [List.getElem?_set_ne (fun hcc => hij hcc.symm)] at hg
          exact hdisj e h i g hg
      · -- new pieces against the updated slot list
        have hb := hpieces e h
        by_cases hij : i = j
        · subst hij
          rw [List.getElem?_set_self (by omega)] at hg
          have hg' := Option.some.inj hg
          subst hg'
          left
          have h12 := hb.2.2
          dsimp only
          omega
        · rw [List.getElem?_set_ne (fun hcc => hij hcc.symm)] at hg
          have hio : i < orig.length := by
            have := (List.getElem?_eq_some.mp hg).1
            omega
          have horigi : orig[i]? = some (orig.get ⟨i, hio⟩) := by
            rw [List.getElem?_eq_getElem hio]
            rfl
          have hsio := hsl i g (orig.get ⟨i, hio⟩) hg horigi
          have hpo := hpieceorig e h
          rcases Nat.lt_or_ge i j with hij2 | hij2
          · right
            have horder := horig2 i j (orig.get ⟨i, hio⟩)
              (orig.get ⟨j, hjorig⟩) hij2 horigi horigj
            rw [hsio.1]
            omega
          · left
            have hij3 : j < i := by omega
            have horder := horig2 j i (orig.get ⟨j, hjorig⟩)
              (orig.get ⟨i, hio⟩) hij3 horigj horigi
            have h13 := hsio.2
            omega

theorem foldl_preserves_inv (β : Int) (hβ : 0 ≤ β) (orig : List Slot)
    (horig : orig.Pairwise (fun g1 g2 => g1.stop ≤ g2.start)) :
    ∀ (queue : List (Nat × Task)) (st : PassState) (extra : List Event),
      (∀ p ∈ queue, 0 ≤ p.2.duration ∧ 0 ≤ p.2.commuteToDuration ∧
        0 ≤ p.2.commuteFromDuration) →
      PassInv orig st extra →
      ∃ extra2 : List Event,
        (queue.foldl (stepTask β) st).events = st.events ++ extra2 ∧
        PassInv orig (queue.foldl (stepTask β) st) (extra ++ extra2) := by
  intro queue
  induction queue with
  | nil =>
    intro st extra _ hinv
    exact ⟨[], by simp, by simpa using hinv⟩
  | cons p rest ih =>
    intro st extra hq hinv
    obtain ⟨newev, hev, hinv'⟩ := stepTask_preserves_inv β hβ orig horig st
      extra p (hq p (List.mem_cons_self p rest)).1
      (hq p (List.mem_cons_self p rest)).2.1
      (hq p (List.mem_cons_self p rest)).2.2 hinv
    obtain ⟨extra2, hev2, hinv2⟩ := ih (stepTask β st p) (extra ++ newev)
      (fun q hq' => hq q (List.mem_cons_of_mem p hq')) hinv'
    refine ⟨newev ++ extra2, ?_, ?_⟩
    · simp only [List.foldl_cons]
      rw [hev2, hev, List.append_assoc]
    · simp only [List.foldl_cons]
      rw [← List.append_assoc]
      exact hinv2

theorem rawSlots_events_disjoint (st : Settings) (events : List Event)
    (a b : Int) :
    ∀ g ∈ rawSlots st events a b, ∀ e ∈ events, e.isFixed = true →
      g.stop ≤ e.start ∨ e.stop ≤ g.start := by
  intro g hg e he hfix
  unfold rawSlots at hg
  rcases List.mem_flatMap.mp hg with ⟨d, _, hgd⟩
  exact daySlotsFor_events_disjoint st _ a d g hgd e
    (List.mem_filter.mpr ⟨he, hfix⟩)

theorem rawSlots_day (st : Settings) (events : List Event) (a b : Int) :
    ∀ g ∈ rawSlots st events a b, ∃ d : Int,
      dayOfWeek d ∈ st.workDays ∧ d * 1440 < b ∧
      dayStartT st d ≤ g.start ∧ g.stop ≤ dayEndT st d := by
  intro g hg
  unfold rawSlots at hg
  rcases List.mem_flatMap.mp hg with ⟨d, hd, hgd⟩
  have hb := daySlotsFor_mem_bounds st _ a d g hgd
  exact ⟨d, hb.1, ((mem_dayList a b d).mp hd).2,
    le_trans (le_max_right a (dayStartT st d)) hb.2.1, hb.2.2.1⟩

/-! ### C10: counterexample, and the amended soundness invariant -/

/-- Settings for the C10 counterexample: Sundays only. -/
def w10st : Settings := ⟨9, 17, [0], 15⟩

/-- Scheduler state for the C10 counterexample: days 0 and 7 are fully
blocked, so the only gap lies on day 14, whose working hours end after the
14-day horizon boundary `720 + 14 * 1440 = 20880`. -/
def w10sch : Scheduler :=
  ⟨[⟨0, "big", 1, 99999, 480, 0, 0, false, none, none⟩],
   [⟨"b1", 540, 1020, true, false, false, none⟩,
    ⟨"b2", 10620, 11100, true, false, false, none⟩], w10st⟩

/-- Counterexample to C10 as stated: a placed task event can extend past the
end of the scheduling horizon (here the task is placed at `[20700, 21180)`
while the horizon ends at `20880`). -/
theorem c10_horizon_counterexample :
    ∃ e ∈ (autoScheduleTasks 720 w10sch).events, e.isTask = true ∧
      720 + 14 * 1440 < e.stop := by
  refine ⟨⟨"big", 20700, 21180, false, true, false, some 0⟩, ?_, rfl, by decide⟩
  show _ ∈ (autoScheduleTasks 720 w10sch).events
  have hev : (autoScheduleTasks 720 w10sch).events =
      [⟨"b1", 540, 1020, true, false, false, none⟩,
       ⟨"b2", 10620, 11100, true, false, false, none⟩,
       ⟨"big", 20700, 21180, false, true, false, some 0⟩] := by rfl
  rw [hev]
  simp

/-- C10 (amended): after a pass, the placed items (task and commute events,
the non-fixed events of the result) are pairwise non-overlapping, disjoint
from every fixed event, and each lies within working hours of a working day
that starts before the horizon's end.  (The original claim's "inside the
scheduling horizon" is weakened: an item on the final examined day may
extend past the horizon's end, as the counterexample shows.) -/
theorem c10_placed_items_sound (sch : Scheduler) (now : Int)
    (hβ : 0 ≤ sch.settings.minBreakBetweenTasks)
    (h0 : 0 ≤ sch.settings.workStart) (h2 : sch.settings.workEnd ≤ 24)
    (hev : ∀ e ∈ sch.events, e.isFixed = true → e.start ≤ e.stop)
    (htasks : ∀ t ∈ sch.tasks, 0 ≤ t.duration ∧ 0 ≤ t.commuteToDuration ∧
      0 ≤ t.commuteFromDuration) :
    ((autoScheduleTasks now sch).events.filter
        (fun e => !e.isFixed)).Pairwise
      (fun e1 e2 => e1.stop ≤ e2.start ∨ e2.stop ≤ e1.start) ∧
    ∀ p ∈ (autoScheduleTasks now sch).events.filter (fun e => !e.isFixed),
      (∀ e ∈ (autoScheduleTasks now sch).events, e.isFixed = true →
        p.stop ≤ e.start ∨ e.stop ≤ p.start) ∧
      ∃ d : Int, dayOfWeek d ∈ sch.settings.workDays ∧
        d * 1440 < now + 14 * 1440 ∧
        dayStartT sch.settings d ≤ p.start ∧
        p.stop ≤ dayEndT sch.settings d := by
  have hval0 : ∀ e ∈ sch.events.filter (fun e => e.isFixed),
      e.isFixed = true → e.start ≤ e.stop := by
    intro e he hfx
    exact hev e (List.mem_filter.mp he).1 hfx
  have horig : (getAvailableSlots sch.settings
      (sch.events.filter (fun e => e.isFixed)) now
      (now + 14 * 1440)).Pairwise (fun g1 g2 => g1.stop ≤ g2.start) :=
    List.Pairwise.sublist (List.filter_sublist _)
      (rawSlots_pairwise sch.settings _ now (now + 14 * 1440) h0 h2 hval0)
  have hq : ∀ p ∈ queueOf (sch.tasks.map resetTask),
      0 ≤ p.2.duration ∧ 0 ≤ p.2.commuteToDuration ∧
        0 ≤ p.2.commuteFromDuration := by
    intro p hp
    have hg := mem_queueOf_getElem _ p hp
    rw [List.getElem?_map] at hg
    rcases hsome : sch.tasks[p.1]? with _ | t
    · rw [hsome] at hg; cases hg
    · rw [hsome] at hg
      have h3 : resetTask t = p.2 := Option.some.inj hg
      have hmem : t ∈ sch.tasks := by
        obtain ⟨hb, he2⟩ := List.getElem?_eq_some.mp hsome
        rw [← he2]
        exact List.getElem_mem hb
      rw [← h3]
      exact htasks t hmem
  have hinv0 : PassInv
      (getAvailableSlots sch.settings
        (sch.events.filter (fun e => e.isFixed)) now (now + 14 * 1440))
      ⟨sch.tasks.map resetTask,
        getAvailableSlots sch.settings
          (sch.events.filter (fun e => e.isFixed)) now (now + 14 * 1440),
        sch.events.filter (fun e => e.isFixed)⟩ [] := by
    refine ⟨rfl, ?_, ?_, List.Pairwise.nil, ?_⟩
    · intro j g h hg hh
      rw [hg] at hh
      have h4 := Option.some.inj hh
      subst h4
      exact ⟨rfl, le_refl _⟩
    · intro e he
      cases he
    · intro e he
      cases he
  obtain ⟨extra2, hev2, hinv2⟩ := foldl_preserves_inv
    sch.settings.minBreakBetweenTasks hβ _ horig
    (queueOf (sch.tasks.map resetTask)) _ [] hq hinv0
  obtain ⟨extra3, hev3, hfix3⟩ := foldl_events_extra
    sch.settings.minBreakBetweenTasks (queueOf (sch.tasks.map resetTask))
    ⟨sch.tasks.map resetTask,
      getAvailableSlots sch.settings
        (sch.events.filter (fun e => e.isFixed)) now (now + 14 * 1440),
      sch.events.filter (fun e => e.isFixed)⟩
  have hextra_eq : extra2 = extra3 := by
    apply List.append_cancel_left
    rw [← hev2, ← hev3]
  have hfix2 : ∀ e ∈ extra2, e.isFixed = false := by
    rw [hextra_eq]
    exact hfix3
  have hevents : (autoScheduleTasks now sch).events =
      sch.events.filter (fun e => e.isFixed) ++ extra2 := by
    show ((queueOf (sch.tasks.map resetTask)).foldl
        (stepTask sch.settings.minBreakBetweenTasks)
        ⟨sch.tasks.map resetTask,
          getAvailableSlots sch.settings
            (sch.events.filter (fun e => e.isFixed)) now (now + 14 * 1440),
          sch.events.filter (fun e => e.isFixed)⟩).events =
      sch.events.filter (fun e => e.isFixed) ++ extra2
    exact hev2
  have hplaced : (autoScheduleTasks now sch).events.filter
      (fun e => !e.isFixed) = extra2 := by
    rw [hevents, List.filter_append]
    have hnil : (sch.events.filter (fun e => e.isFixed)).filter
        (fun e => !e.isFixed) = [] := by
      apply List.filter_eq_nil_iff.mpr
      intro e he
      rw [(List.mem_filter.mp he).2]
      simp
    have hall : extra2.filter (fun e => !e.isFixed) = extra2 := by
      apply List.filter_eq_self.mpr
      intro e he
      rw [hfix2 e he]
      rfl
    rw [hnil, hall, List.nil_append]
  obtain ⟨_, _, hex2, hpw2, _⟩ := hinv2
  constructor
  · rw [hplaced]
    simpa using hpw2
  · intro p hp
    rw [hplaced] at hp
    obtain ⟨hse, j, h, horigj, hh1, hh2⟩ := hex2 p (by simpa using hp)
    have hmemorig : h ∈ getAvailableSlots sch.settings
        (sch.events.filter (fun e => e.isFixed)) now (now + 14 * 1440) := by
      obtain ⟨hb, he2⟩ := List.getElem?_eq_some.mp horigj
      rw [← he2]
      exact List.getElem_mem hb
    have hmemraw : h ∈ rawSlots sch.settings
        (sch.events.filter (fun e => e.isFixed)) now (now + 14 * 1440) :=
      (List.mem_filter.mp hmemorig).1
    constructor
    · intro e he hfxe
      rw [hevents] at he
      rcases List.mem_append.mp he with h5 | h5
      · have hdis := rawSlots_events_disjoint sch.settings _ now
          (now + 14 * 1440) h hmemraw e h5 hfxe
        rcases hdis with h6 | h6
        · exact Or.inl (by omega)
        · exact Or.inr (by omega)
      · rw [hfix2 e h5] at hfxe
        cases hfxe
    · obtain ⟨d, hd1, hd2, hd3, hd4⟩ := rawSlots_day sch.settings _ now
        (now + 14 * 1440) h hmemraw
      exact ⟨d, hd1, hd2, by omega, by omega⟩

/-- Witness for the amended C10 at a concrete input. -/
theorem c10_placed_items_sound_witness :
    ((0 : Int) ≤ w9st.minBreakBetweenTasks ∧ (0 : Int) ≤ w9st.workStart ∧
      w9st.workEnd ≤ 24 ∧
      (∀ e ∈ w9sch.events, e.isFixed = true → e.start ≤ e.stop) ∧
      (∀ t ∈ w9sch.tasks, 0 ≤ t.duration ∧ 0 ≤ t.commuteToDuration ∧
        0 ≤ t.commuteFromDuration)) ∧
    (((autoScheduleTasks 720 w9sch).events.filter
        (fun e => !e.isFixed)).Pairwise
      (fun e1 e2 => e1.stop ≤ e2.start ∨ e2.stop ≤ e1.start) ∧
    ∀ p ∈ (autoScheduleTasks 720 w9sch).events.filter (fun e => !e.isFixed),
      (∀ e ∈ (autoScheduleTasks 720 w9sch).events, e.isFixed = true →
        p.stop ≤ e.start ∨ e.stop ≤ p.start) ∧
      ∃ d : Int, dayOfWeek d ∈ w9sch.settings.workDays ∧
        d * 1440 < 720 + 14 * 1440 ∧
        dayStartT w9sch.settings d ≤ p.start ∧
        p.stop ≤ dayEndT w9sch.settings d) :=
  ⟨⟨by decide, by decide, by decide, by decide, by decide⟩,
   c10_placed_items_sound w9sch 720 (by decide) (by decide) (by decide)
     (by decide) (by decide)⟩

end Cal
